import Mathlib

/-!
# Threaded binary search tree (`binaryTree.hpp`)

A shallow embedding of the class template `BinaryTree<T>` and of its nested class `Node`.

* Memory.  Every `new Node(x)` appends one cell to `heap`; a `Node*` is the index of the cell
  (`none` is `nullptr`).  Nodes are never freed before the destructor runs, so cells never move.
* `NodePtr` is `llvm::PointerIntPair<Node*, 1, bool>`: a pointer together with one bit, here the
  pair of `getPointer` and `getInt`.
* A function that follows pointers takes a fuel argument, and every entry point supplies
  `heap.length + 1`.  A read-only descent that takes more steps than there are cells visits a
  cell twice and therefore never ends, so with this fuel `none` means exactly: the C++ code
  dereferences `nullptr` or does not terminate.
* `unsigned` is 32 bits wide: arithmetic on `m_size`, `m_depth` and `level` is taken modulo `2 ^ 32`.
* The element type `T` is a linear order; `>` and `==` are its order and its equality.
-/

namespace ASD2

/-! ## Data model -/

/-- The anonymous enum of `Node`: `THREAD = 0`, `NO_THREAD = 1`. -/
inductive Tag where
  | THREAD
  | NO_THREAD
  deriving DecidableEq, Repr

/-- A nullable `Node*`. -/
abbrev Ptr := Option Nat

/-- Modelled from the spec: the type `NodePtr = llvm::PointerIntPair<Node*, 1, bool>`, whose
    header `PointerIntPair.h` is not among the sources.  It is the tagged link of the spec: a
    nullable node reference (`getPointer`) with a one-bit tag (`getInt`); `setPointerAndInt`
    assigns both. -/
structure NodePtr where
  getPointer : Ptr
  getInt : Tag
  deriving DecidableEq, Repr

/-- Modelled from the spec: the value `NodePtr{nullptr}`, a null reference tagged `THREAD`
    (the link of an empty tree, and both links of a node just constructed). -/
def NodePtr.null : NodePtr := ⟨none, Tag.THREAD⟩

/-- The class `BinaryTree<T>::Node`. -/
structure Node (α : Type) where
  m_value : α
  m_leftChild : NodePtr
  m_rightChild : NodePtr
  deriving DecidableEq, Repr

/-- The class `BinaryTree<T>`, together with the cells it has allocated. -/
structure BinaryTree (α : Type) where
  heap : List (Node α)
  m_root : NodePtr
  m_size : Nat
  m_depth : Nat
  deriving DecidableEq, Repr

/-- The default-constructed tree: `m_root{nullptr}`, `m_size{0}`, `m_depth{0}`. -/
def BinaryTree.empty {α : Type} : BinaryTree α := ⟨[], NodePtr.null, 0, 0⟩

/-- The exception thrown by `minimum` and `maximum`. -/
inductive Exception where
  | out_of_range
  deriving DecidableEq, Repr

/-- A place that holds a `NodePtr`: what a `NodePtr&` can refer to. -/
inductive Slot where
  | root
  | left (node : Nat)
  | right (node : Nat)
  deriving DecidableEq, Repr

/-! ## `Node` -/

section NodeOps
variable {α : Type}

/-- The accessor `Node::value`. -/
def Node.value (n : Node α) : α := n.m_value

/-- The accessor `Node::leftChild`. -/
def Node.leftChild (n : Node α) : Ptr :=
  if n.m_leftChild.getInt = Tag.THREAD then none else n.m_leftChild.getPointer

/-- The accessor `Node::rightChild`. -/
def Node.rightChild (n : Node α) : Ptr :=
  if n.m_rightChild.getInt = Tag.THREAD then none else n.m_rightChild.getPointer

/-- The loop of `Node::previous`: `while (current->rightChild()) current = current->rightChild()`. -/
def Node.previousLoop (heap : List (Node α)) : Nat → Ptr → Option Ptr
  | 0, _ => none
  | fuel + 1, current =>
    match current with
    | none => none
    | some c =>
      match heap[c]? with
      | none => none
      | some nd =>
        match nd.rightChild with
        | none => some current
        | some r => Node.previousLoop heap fuel (some r)

/-- The method `Node::previous`. -/
def Node.previous (heap : List (Node α)) (n : Node α) : Option Ptr :=
  if n.m_leftChild.getInt = Tag.THREAD then some n.m_leftChild.getPointer
  else Node.previousLoop heap (heap.length + 1) n.m_leftChild.getPointer

/-- The loop of `Node::next`: `while (current->leftChild()) current = current->leftChild()`. -/
def Node.nextLoop (heap : List (Node α)) : Nat → Ptr → Option Ptr
  | 0, _ => none
  | fuel + 1, current =>
    match current with
    | none => none
    | some c =>
      match heap[c]? with
      | none => none
      | some nd =>
        match nd.leftChild with
        | none => some current
        | some l => Node.nextLoop heap fuel (some l)

/-- The method `Node::next`. -/
def Node.next (heap : List (Node α)) (n : Node α) : Option Ptr :=
  if n.m_rightChild.getInt = Tag.THREAD then some n.m_rightChild.getPointer
  else Node.nextLoop heap (heap.length + 1) n.m_rightChild.getPointer

/-- The private accessor `Node::leftPointer`: the reference `m_leftChild` of the node. -/
abbrev Node.leftPointer (node : Nat) : Slot := Slot.left node

/-- The private accessor `Node::rightPointer`: the reference `m_rightChild` of the node. -/
abbrev Node.rightPointer (node : Nat) : Slot := Slot.right node

end NodeOps

/-! ## `BinaryTree` -/

namespace BinaryTree
variable {α : Type}

/-- Reading through a `NodePtr&`. -/
def get (t : BinaryTree α) : Slot → Option NodePtr
  | Slot.root => some t.m_root
  | Slot.left i => (t.heap[i]?).map Node.m_leftChild
  | Slot.right i => (t.heap[i]?).map Node.m_rightChild

/-- Writing through a `NodePtr&`. -/
def set (t : BinaryTree α) : Slot → NodePtr → Option (BinaryTree α)
  | Slot.root, v => some { t with m_root := v }
  | Slot.left i, v =>
    (t.heap[i]?).map fun nd => { t with heap := t.heap.set i { nd with m_leftChild := v } }
  | Slot.right i, v =>
    (t.heap[i]?).map fun nd => { t with heap := t.heap.set i { nd with m_rightChild := v } }

/-- The accessor `size`. -/
def size (t : BinaryTree α) : Nat := t.m_size

/-- The accessor `depth`. -/
def depth (t : BinaryTree α) : Nat := t.m_depth

section Ordered
variable [LinearOrder α]

mutual

/-- The private method `insertLeft(parent, newNode, previous, level)`.  The fields
    `newNode->m_leftChild` and `newNode->m_rightChild` are the slots `Slot.left newNode` and
    `Slot.right newNode`; `newNode` comes from `new` and is never null. -/
def insertLeft (fuel : Nat) (t : BinaryTree α) (parent : Slot) (newNode : Nat)
    (previous : Ptr) (level : Nat) : Option (BinaryTree α) :=
  match fuel with
  | 0 => none
  | fuel + 1 =>
    match t.get parent with
    | none => none
    | some p =>
      if p.getInt = Tag.THREAD then
        let t1 := { t with m_size := (t.m_size + 1) % 2 ^ 32 }
        let t2 := if level > t1.m_depth then { t1 with m_depth := level } else t1
        (t2.set (Slot.left newNode) p).bind fun t3 =>
          (t3.set (Slot.right newNode) ⟨previous, Tag.THREAD⟩).bind fun t4 =>
            t4.set parent ⟨some newNode, Tag.NO_THREAD⟩
      else
        match p.getPointer with
        | none => none
        | some q =>
          match t.heap[q]?, t.heap[newNode]? with
          | some pn, some nn =>
            if pn.value > nn.value then
              insertLeft fuel t (Node.leftPointer q) newNode (some q) ((level + 1) % 2 ^ 32)
            else
              insertRight fuel t (Node.rightPointer q) newNode (some q) ((level + 1) % 2 ^ 32)
          | _, _ => none

/-- The private method `insertRight(parent, newNode, next, level)`. -/
def insertRight (fuel : Nat) (t : BinaryTree α) (parent : Slot) (newNode : Nat)
    (next : Ptr) (level : Nat) : Option (BinaryTree α) :=
  match fuel with
  | 0 => none
  | fuel + 1 =>
    match t.get parent with
    | none => none
    | some p =>
      if p.getInt = Tag.THREAD then
        let t1 := { t with m_size := (t.m_size + 1) % 2 ^ 32 }
        let t2 := if level > t1.m_depth then { t1 with m_depth := level } else t1
        (t2.set (Slot.right newNode) p).bind fun t3 =>
          (t3.set (Slot.left newNode) ⟨next, Tag.THREAD⟩).bind fun t4 =>
            t4.set parent ⟨some newNode, Tag.NO_THREAD⟩
      else
        match p.getPointer with
        | none => none
        | some q =>
          match t.heap[q]?, t.heap[newNode]? with
          | some pn, some nn =>
            if pn.value > nn.value then
              insertLeft fuel t (Node.leftPointer q) newNode (some q) ((level + 1) % 2 ^ 32)
            else
              insertRight fuel t (Node.rightPointer q) newNode (some q) ((level + 1) % 2 ^ 32)
          | _, _ => none

end

/-- The method `insert(x)`: `new Node(x)` followed by `insertLeft(m_root, tmp, nullptr)`, whose
    `level` defaults to `1`. -/
def insert (t : BinaryTree α) (x : α) : Option (BinaryTree α) :=
  let tmp := t.heap.length
  let t1 : BinaryTree α := { t with heap := t.heap ++ [⟨x, NodePtr.null, NodePtr.null⟩] }
  insertLeft (t1.heap.length + 1) t1 Slot.root tmp none 1

/-- The loop of `search`. -/
def searchLoop (heap : List (Node α)) (x : α) : Nat → Ptr → Option Ptr
  | 0, _ => none
  | fuel + 1, tmp =>
    match tmp with
    | none => some none
    | some p =>
      match heap[p]? with
      | none => none
      | some nd =>
        if nd.value = x then some (some p)
        else if nd.value > x then searchLoop heap x fuel nd.leftChild
        else searchLoop heap x fuel nd.rightChild

/-- The method `search(x)`.  The result `&tmp->value()` is given as the node whose value it
    addresses. -/
def search (t : BinaryTree α) (x : α) : Option Ptr :=
  searchLoop t.heap x (t.heap.length + 1) t.m_root.getPointer

/-- The static method `searchRecursive(node, x)`. -/
def searchRecursiveAux (heap : List (Node α)) (x : α) : Nat → Ptr → Option Ptr
  | 0, _ => none
  | _ + 1, none => some none
  | fuel + 1, some n =>
    (heap[n]?).bind fun nd =>
      if nd.value = x then some (some n)
      else if nd.value > x then searchRecursiveAux heap x fuel nd.leftChild
      else searchRecursiveAux heap x fuel nd.rightChild

/-- The method `searchRecursive(x)`. -/
def searchRecursive (t : BinaryTree α) (x : α) : Option Ptr :=
  searchRecursiveAux t.heap x (t.heap.length + 1) t.m_root.getPointer

end Ordered

/-! ### Traversals

The visitor `const std::function<void(const T&)>&` is a state transformer on whatever the
callback captures; a traversal returns the state after the last call. -/

section Traversal
variable {σ : Type}

/-- The private method `inorder(node, f)`. -/
def inorderAux (heap : List (Node α)) (f : σ → α → σ) : Nat → Ptr → σ → Option σ
  | 0, _, _ => none
  | _ + 1, none, s => some s
  | fuel + 1, some n, s =>
    (heap[n]?).bind fun nd =>
      (inorderAux heap f fuel nd.leftChild s).bind fun s1 =>
        inorderAux heap f fuel nd.rightChild (f s1 nd.value)

/-- The private method `preorder(node, f)`. -/
def preorderAux (heap : List (Node α)) (f : σ → α → σ) : Nat → Ptr → σ → Option σ
  | 0, _, _ => none
  | _ + 1, none, s => some s
  | fuel + 1, some n, s =>
    (heap[n]?).bind fun nd =>
      (preorderAux heap f fuel nd.leftChild (f s nd.value)).bind fun s1 =>
        preorderAux heap f fuel nd.rightChild s1

/-- The private method `postorder(node, f)`. -/
def postorderAux (heap : List (Node α)) (f : σ → α → σ) : Nat → Ptr → σ → Option σ
  | 0, _, _ => none
  | _ + 1, none, s => some s
  | fuel + 1, some n, s =>
    (heap[n]?).bind fun nd =>
      (postorderAux heap f fuel nd.leftChild s).bind fun s1 =>
        (postorderAux heap f fuel nd.rightChild s1).bind fun s2 =>
          some (f s2 nd.value)

/-- Modelled from the spec: the conversion of `m_root` to the `const Node*` that
    `preorder(m_root, f)` and `postorder(m_root, f)` pass on.  `PointerIntPair.h` is not among
    the sources; the spec has every traversal start at the root node, which is `getPointer`. -/
def rootNode (t : BinaryTree α) : Ptr := t.m_root.getPointer

/-- The method `inorder(f)`. -/
def inorder (t : BinaryTree α) (f : σ → α → σ) (s : σ) : Option σ :=
  inorderAux t.heap f (t.heap.length + 1) t.m_root.getPointer s

/-- The method `preorder(f)`. -/
def preorder (t : BinaryTree α) (f : σ → α → σ) (s : σ) : Option σ :=
  preorderAux t.heap f (t.heap.length + 1) t.rootNode s

/-- The method `postorder(f)`. -/
def postorder (t : BinaryTree α) (f : σ → α → σ) (s : σ) : Option σ :=
  postorderAux t.heap f (t.heap.length + 1) t.rootNode s

end Traversal

/-- The loop of `minimum`: `while (tmp->leftChild()) tmp = tmp->leftChild()`. -/
def minimumLoop (heap : List (Node α)) : Nat → Ptr → Option Ptr
  | 0, _ => none
  | fuel + 1, tmp =>
    match tmp with
    | none => none
    | some c =>
      match heap[c]? with
      | none => none
      | some nd =>
        match nd.leftChild with
        | none => some tmp
        | some l => minimumLoop heap fuel (some l)

/-- The loop of `maximum`: `while (tmp->rightChild()) tmp = tmp->rightChild()`. -/
def maximumLoop (heap : List (Node α)) : Nat → Ptr → Option Ptr
  | 0, _ => none
  | fuel + 1, tmp =>
    match tmp with
    | none => none
    | some c =>
      match heap[c]? with
      | none => none
      | some nd =>
        match nd.rightChild with
        | none => some tmp
        | some r => maximumLoop heap fuel (some r)

/-- The dereference `tmp->value()`. -/
def valueAt (heap : List (Node α)) (p : Ptr) : Option α :=
  p.bind fun i => (heap[i]?).map Node.value

/-- The method `minimum()`. -/
def minimum (t : BinaryTree α) : Option (Except Exception α) :=
  if t.m_root.getPointer = none then some (Except.error Exception.out_of_range)
  else
    (minimumLoop t.heap (t.heap.length + 1) t.m_root.getPointer).bind fun tmp =>
      (valueAt t.heap tmp).map Except.ok

/-- The method `maximum()`. -/
def maximum (t : BinaryTree α) : Option (Except Exception α) :=
  if t.m_root.getPointer = none then some (Except.error Exception.out_of_range)
  else
    (maximumLoop t.heap (t.heap.length + 1) t.m_root.getPointer).bind fun tmp =>
      (valueAt t.heap tmp).map Except.ok

/-- The tree after `insert` has been called with each element of `xs` in turn, starting from
    the default-constructed tree. -/
def build [LinearOrder α] (xs : List α) : Option (BinaryTree α) :=
  xs.foldlM insert empty

/-- The values handed to the visitor by `inorder`, in call order. -/
def inorderValues (t : BinaryTree α) : Option (List α) :=
  t.inorder (fun log v => log ++ [v]) []

/-- The in-order listing of the nodes: the traversal of `inorder(node, f)` recording the node
    visited instead of calling `f` on its value. -/
def inorderNodesAux (heap : List (Node α)) : Nat → Ptr → Option (List Nat)
  | 0, _ => none
  | _ + 1, none => some []
  | fuel + 1, some n =>
    (heap[n]?).bind fun nd =>
      (inorderNodesAux heap fuel nd.leftChild).bind fun l =>
        (inorderNodesAux heap fuel nd.rightChild).bind fun r =>
          some (l ++ n :: r)

/-- The in-order listing of the nodes of the tree. -/
def inorderNodes (t : BinaryTree α) : Option (List Nat) :=
  inorderNodesAux t.heap (t.heap.length + 1) t.m_root.getPointer

end BinaryTree

/-! ## Abstraction

The proofs relate the cells of a tree to an inductive binary tree that records, for every node,
its cell and its value.  `Rep heap side link lo hi s` says that the link `link`, found in a slot
on side `side` of its owner, stands for `s`, where `lo` and `hi` are the nodes that come just
before and just after the nodes of `s` in the in-order listing of the whole tree. -/

/-- An inductive binary tree of cells with their values. -/
inductive Shape (α : Type) where
  | nil
  | node (l : Shape α) (id : Nat) (v : α) (r : Shape α)
  deriving Repr

/-- The side of its owner on which a slot lies; the root slot counts as a left slot. -/
inductive Side where
  | L
  | R
  deriving DecidableEq, Repr

namespace Shape
variable {α : Type}

/-- The cells of a shape, in order. -/
def ids : Shape α → List Nat
  | nil => []
  | node l i _ r => l.ids ++ i :: r.ids

/-- The values of a shape, in order. -/
def vals : Shape α → List α
  | nil => []
  | node l _ v r => l.vals ++ v :: r.vals

/-- The values of a shape, parent first. -/
def preVals : Shape α → List α
  | nil => []
  | node l _ v r => v :: (l.preVals ++ r.preVals)

/-- The values of a shape, parent last. -/
def postVals : Shape α → List α
  | nil => []
  | node l _ v r => l.postVals ++ (r.postVals ++ [v])

/-- The number of nodes on the longest path from the top. -/
def height : Shape α → Nat
  | nil => 0
  | node l _ _ r => max l.height r.height + 1

/-- The cell at the top of a shape. -/
def rootId : Shape α → Ptr
  | nil => none
  | node _ i _ _ => some i

/-- The first cell of a shape in order. -/
def firstId : Shape α → Ptr
  | nil => none
  | node nil i _ _ => some i
  | node (node a j w b) _ _ _ => (node a j w b).firstId

/-- The last cell of a shape in order. -/
def lastId : Shape α → Ptr
  | nil => none
  | node _ i _ nil => some i
  | node _ _ _ (node a j w b) => (node a j w b).lastId

/-- Search-tree order with equal values to the right. -/
def Bst [LinearOrder α] : Shape α → Prop
  | nil => True
  | node l _ v r => (∀ u ∈ l.vals, u < v) ∧ (∀ u ∈ r.vals, v ≤ u) ∧ l.Bst ∧ r.Bst

/-- Insertion of the value `x`, held by the cell `new`, by the comparisons of `insertLeft`. -/
def ins [LinearOrder α] (x : α) (new : Nat) : Shape α → Shape α
  | nil => node nil new x nil
  | node l i v r => if v > x then node (l.ins x new) i v r else node l i v (r.ins x new)

/-- The number of nodes that the descent of an insertion of `x` passes. -/
def pathLen [LinearOrder α] (x : α) : Shape α → Nat
  | nil => 0
  | node l _ v r => if v > x then l.pathLen x + 1 else r.pathLen x + 1

/-- The shape after inserting the elements of a list in turn; the `k`-th cell holds the `k`-th. -/
def ofList [LinearOrder α] (xs : List α) : Shape α :=
  xs.foldl (fun s x => s.ins x s.ids.length) nil

end Shape

/-- The node that owns a slot. -/
def Slot.owner : Slot → Ptr
  | Slot.root => none
  | Slot.left i => some i
  | Slot.right i => some i

/-- The target of a link when it is followed as a child: `leftChild` and `rightChild`. -/
def NodePtr.child (p : NodePtr) : Ptr :=
  if p.getInt = Tag.THREAD then none else p.getPointer

/-- The thread kept in an empty slot: the lower neighbour on the left, the upper on the right. -/
def Side.thread : Side → Ptr → Ptr → Ptr
  | Side.L, lo, _ => lo
  | Side.R, _, hi => hi

/-- The neighbour handed down to a slot: the owner, which is the upper bound of a left slot
    and the lower bound of a right slot. -/
def Side.neighbour : Side → Ptr → Ptr → Ptr
  | Side.L, _, hi => hi
  | Side.R, lo, _ => lo

/-- The link `link` stands for the shape `s` between the neighbours `lo` and `hi`. -/
def Rep {α : Type} (heap : List (Node α)) : Side → NodePtr → Ptr → Ptr → Shape α → Prop
  | side, link, lo, hi, Shape.nil => link = ⟨side.thread lo hi, Tag.THREAD⟩
  | _, link, lo, hi, Shape.node l i v r =>
    link = ⟨some i, Tag.NO_THREAD⟩ ∧
      ∃ nd, heap[i]? = some nd ∧ nd.m_value = v ∧
        Rep heap Side.L nd.m_leftChild lo (some i) l ∧
        Rep heap Side.R nd.m_rightChild (some i) hi r

/-- Either of `insertLeft` and `insertRight`, by the side of the slot. -/
def BinaryTree.insertSide {α : Type} [LinearOrder α] :
    Side → Nat → BinaryTree α → Slot → Nat → Ptr → Nat → Option (BinaryTree α)
  | Side.L => BinaryTree.insertLeft
  | Side.R => BinaryTree.insertRight

/-- What one descent of `insertLeft` or `insertRight` achieves, from the slot `sl` that stands
    for `s`: `t1` is the tree after it and `fs` the slot that received the new node. -/
structure InsertPost {α : Type} [LinearOrder α] (t t1 : BinaryTree α) (side : Side) (sl fs : Slot)
    (lo hi : Ptr) (s : Shape α) (x : α) (new level : Nat) : Prop where
  length_eq : t1.heap.length = t.heap.length
  value_eq : ∀ j : Nat, (t1.heap[j]?).map Node.m_value = (t.heap[j]?).map Node.m_value
  final_mem : fs = sl ∨ ∃ o ∈ s.ids, fs.owner = some o
  final_old : ∃ p, t.get fs = some ⟨p, Tag.THREAD⟩
  final_new : t1.get fs = some ⟨some new, Tag.NO_THREAD⟩
  frame : ∀ sl1, sl1 ≠ fs → sl1.owner ≠ some new → t1.get sl1 = t.get sl1
  rep : ∃ link1, t1.get sl = some link1 ∧ Rep t1.heap side link1 lo hi (s.ins x new)
  size_eq : t1.m_size = (t.m_size + 1) % 2 ^ 32
  depth_eq : t1.m_depth = max t.m_depth ((level + s.pathLen x) % 2 ^ 32)

/-- The state of the tree after the insertions `xs`, in terms of the shape `Shape.ofList xs`. -/
structure Inv {α : Type} [LinearOrder α] (xs : List α) (t : BinaryTree α) : Prop where
  rep : Rep t.heap Side.L t.m_root none none (Shape.ofList xs)
  length_eq : t.heap.length = xs.length
  size_eq : t.m_size = xs.length % 2 ^ 32

/-- The entry before position `i` of a list, `lo` before the first. -/
def prevAt (lo : Ptr) (L : List Nat) (i : Nat) : Ptr := if i = 0 then lo else L[i - 1]?

/-- The entry after position `i` of a list, `hi` after the last. -/
def nextAt (hi : Ptr) (L : List Nat) (i : Nat) : Ptr := if i + 1 = L.length then hi else L[i + 1]?

/-- The values of the subtree below a child pointer, as `inorder(node, f)` visits them. -/
def BinaryTree.subtreeValues {α : Type} (heap : List (Node α)) (p : Ptr) : Option (List α) :=
  BinaryTree.inorderAux heap (fun log v => log ++ [v]) (heap.length + 1) p []

/-- The greatest number of child links on a way from a link down to a node, the link itself
    counted when it leads to a node; `p` is the node the link leads to as a child, if any. -/
def BinaryTree.childDepthAux {α : Type} (heap : List (Node α)) : Nat → Ptr → Option Nat
  | 0, _ => none
  | _ + 1, none => some 0
  | fuel + 1, some n =>
    (heap[n]?).bind fun nd =>
      (BinaryTree.childDepthAux heap fuel nd.leftChild).bind fun a =>
        (BinaryTree.childDepthAux heap fuel nd.rightChild).bind fun b =>
          some (max a b + 1)

/-- The greatest number of child links traversed from the root link to reach a node of the
    tree, `0` when the root link leads to no node. -/
def BinaryTree.childDepth {α : Type} (t : BinaryTree α) : Option Nat :=
  BinaryTree.childDepthAux t.heap (t.heap.length + 1) t.m_root.child

/-- The nodes of the subtree below a child pointer, in order. -/
def BinaryTree.subtreeNodes {α : Type} (heap : List (Node α)) (p : Ptr) : Option (List Nat) :=
  BinaryTree.inorderNodesAux heap (heap.length + 1) p

/-- The shape and the value of `m_depth` after inserting the elements of a list in turn: each
    insertion raises `m_depth` to the level of the new node, counted modulo `2 ^ 32`. -/
def Shape.stateOfList {α : Type} [LinearOrder α] (xs : List α) : Shape α × Nat :=
  xs.foldl
    (fun p x => (p.1.ins x p.1.ids.length, max p.2 ((1 + p.1.pathLen x) % 2 ^ 32)))
    (Shape.nil, 0)

/-- The value of `m_depth` after inserting the elements of a list in turn. -/
def Shape.depthOfList {α : Type} [LinearOrder α] (xs : List α) : Nat :=
  (Shape.stateOfList xs).2

/-- No node of the shape has a left child. -/
def Shape.RightSpine {α : Type} : Shape α → Prop
  | Shape.nil => True
  | Shape.node l _ _ r => l = Shape.nil ∧ r.RightSpine

/-- No node of the shape has a right child. -/
def Shape.LeftSpine {α : Type} : Shape α → Prop
  | Shape.nil => True
  | Shape.node l _ _ r => r = Shape.nil ∧ l.LeftSpine

/-- The shape has the cell `m` with the value `x`. -/
def Shape.has {α : Type} : Shape α → Nat → α → Prop
  | Shape.nil, _, _ => False
  | Shape.node l i v r, m, x => (i = m ∧ v = x) ∨ l.has m x ∨ r.has m x

/-- In the shape, the cell `n` lies in the subtree below the right child of the cell `m`. -/
def Shape.inRight {α : Type} : Shape α → Nat → Nat → Prop
  | Shape.nil, _, _ => False
  | Shape.node l i _ r, m, n => (i = m ∧ n ∈ r.ids) ∨ l.inRight m n ∨ r.inRight m n

/-- The side on which a slot lies: `insert` starts `insertLeft` on the root slot. -/
def Slot.side : Slot → Side
  | Slot.root => Side.L
  | Slot.left _ => Side.L
  | Slot.right _ => Side.R

/-- The tree that the insertions 5, 3, 8, 1, 4, 7, 9 leave behind, cell by cell. -/
def scenarioTree : BinaryTree Nat where
  heap :=
    [⟨5, ⟨some 1, Tag.NO_THREAD⟩, ⟨some 2, Tag.NO_THREAD⟩⟩,
     ⟨3, ⟨some 3, Tag.NO_THREAD⟩, ⟨some 4, Tag.NO_THREAD⟩⟩,
     ⟨8, ⟨some 5, Tag.NO_THREAD⟩, ⟨some 6, Tag.NO_THREAD⟩⟩,
     ⟨1, ⟨none, Tag.THREAD⟩, ⟨some 1, Tag.THREAD⟩⟩,
     ⟨4, ⟨some 1, Tag.THREAD⟩, ⟨some 0, Tag.THREAD⟩⟩,
     ⟨7, ⟨some 0, Tag.THREAD⟩, ⟨some 2, Tag.THREAD⟩⟩,
     ⟨9, ⟨some 2, Tag.THREAD⟩, ⟨none, Tag.THREAD⟩⟩]
  m_root := ⟨some 0, Tag.NO_THREAD⟩
  m_size := 7
  m_depth := 3

/-- The link of a node attached at the slot `fs` that faces away from the parent: the left
    link below a left slot or the root slot, the right link below a right slot. -/
def Slot.outer (fs : Slot) (new : Nat) : Slot :=
  match fs.side with
  | Side.L => Slot.left new
  | Side.R => Slot.right new

/-- The link of a node attached at the slot `fs` that faces the parent. -/
def Slot.inner (fs : Slot) (new : Nat) : Slot :=
  match fs.side with
  | Side.L => Slot.right new
  | Side.R => Slot.left new

/-- What the branch taken at a slot tagged `THREAD` writes: `fs` is that slot and `new` the
    node attached there. -/
structure Attached {α : Type} (t t1 : BinaryTree α) (fs : Slot) (new : Nat) : Prop where
  old_thread : ∃ old, t.get fs = some old ∧ old.getInt = Tag.THREAD ∧
    t1.get (fs.outer new) = some old
  inner_thread : t1.get (fs.inner new) = some ⟨fs.owner, Tag.THREAD⟩
  slot_child : t1.get fs = some ⟨some new, Tag.NO_THREAD⟩

/-! ## Theorems -/

open BinaryTree

section Basic
variable {α : Type}

theorem get_left_eq_some {t : BinaryTree α} {i : Nat} {v : NodePtr} :
    t.get (Slot.left i) = some v ↔ ∃ nd, t.heap[i]? = some nd ∧ nd.m_leftChild = v := by
  simp [BinaryTree.get]

theorem get_right_eq_some {t : BinaryTree α} {i : Nat} {v : NodePtr} :
    t.get (Slot.right i) = some v ↔ ∃ nd, t.heap[i]? = some nd ∧ nd.m_rightChild = v := by
  simp [BinaryTree.get]

theorem set_exists {t : BinaryTree α} {sl : Slot} {w : NodePtr} (h : t.get sl = some w)
    (v : NodePtr) : ∃ t1, t.set sl v = some t1 := by
  cases sl with
  | root => exact ⟨_, rfl⟩
  | left i =>
    obtain ⟨nd, hnd, -⟩ := get_left_eq_some.mp h
    simp [BinaryTree.set, hnd]
  | right i =>
    obtain ⟨nd, hnd, -⟩ := get_right_eq_some.mp h
    simp [BinaryTree.set, hnd]

theorem set_get_same {t t1 : BinaryTree α} {sl : Slot} {v : NodePtr}
    (h : t.set sl v = some t1) : t1.get sl = some v := by
  cases sl with
  | root =>
    simp only [BinaryTree.set, Option.some.injEq] at h
    subst h; rfl
  | left i =>
    simp only [BinaryTree.set, Option.map_eq_some'] at h
    obtain ⟨nd, hnd, rfl⟩ := h
    have hi : i < t.heap.length := (List.getElem?_eq_some_iff.mp hnd).1
    simp [BinaryTree.get, hi]
  | right i =>
    simp only [BinaryTree.set, Option.map_eq_some'] at h
    obtain ⟨nd, hnd, rfl⟩ := h
    have hi : i < t.heap.length := (List.getElem?_eq_some_iff.mp hnd).1
    simp [BinaryTree.get, hi]

theorem set_get_other {t t1 : BinaryTree α} {sl sl1 : Slot} {v : NodePtr}
    (h : t.set sl v = some t1) (hne : sl1 ≠ sl) : t1.get sl1 = t.get sl1 := by
  cases sl with
  | root =>
    simp only [BinaryTree.set, Option.some.injEq] at h
    subst h
    cases sl1 <;> simp_all [BinaryTree.get]
  | left i =>
    simp only [BinaryTree.set, Option.map_eq_some'] at h
    obtain ⟨nd, hnd, rfl⟩ := h
    cases sl1 with
    | root => rfl
    | left j =>
      have hji : i ≠ j := fun e => hne (by rw [e])
      simp [BinaryTree.get, List.getElem?_set, hji]
    | right j =>
      by_cases hji : i = j
      · subst hji
        have hi : i < t.heap.length := (List.getElem?_eq_some_iff.mp hnd).1
        simp [BinaryTree.get, List.getElem?_set, hi, hnd]
      · simp [BinaryTree.get, List.getElem?_set, hji]
  | right i =>
    simp only [BinaryTree.set, Option.map_eq_some'] at h
    obtain ⟨nd, hnd, rfl⟩ := h
    cases sl1 with
    | root => rfl
    | right j =>
      have hji : i ≠ j := fun e => hne (by rw [e])
      simp [BinaryTree.get, List.getElem?_set, hji]
    | left j =>
      by_cases hji : i = j
      · subst hji
        have hi : i < t.heap.length := (List.getElem?_eq_some_iff.mp hnd).1
        simp [BinaryTree.get, List.getElem?_set, hi, hnd]
      · simp [BinaryTree.get, List.getElem?_set, hji]

theorem set_fields {t t1 : BinaryTree α} {sl : Slot} {v : NodePtr}
    (h : t.set sl v = some t1) :
    t1.heap.length = t.heap.length ∧ t1.m_size = t.m_size ∧ t1.m_depth = t.m_depth ∧
      ∀ j : Nat, (t1.heap[j]?).map Node.m_value = (t.heap[j]?).map Node.m_value := by
  cases sl with
  | root =>
    simp only [BinaryTree.set, Option.some.injEq] at h
    subst h
    simp
  | left i =>
    simp only [BinaryTree.set, Option.map_eq_some'] at h
    obtain ⟨nd, hnd, rfl⟩ := h
    refine ⟨by simp, rfl, rfl, fun j => ?_⟩
    by_cases hji : i = j
    · subst hji
      have hi : i < t.heap.length := (List.getElem?_eq_some_iff.mp hnd).1
      simp [List.getElem?_set, hi, hnd]
    · simp [List.getElem?_set, hji]
  | right i =>
    simp only [BinaryTree.set, Option.map_eq_some'] at h
    obtain ⟨nd, hnd, rfl⟩ := h
    refine ⟨by simp, rfl, rfl, fun j => ?_⟩
    by_cases hji : i = j
    · subst hji
      have hi : i < t.heap.length := (List.getElem?_eq_some_iff.mp hnd).1
      simp [List.getElem?_set, hi, hnd]
    · simp [List.getElem?_set, hji]

/-- Two heaps agree at a cell when its value and both of its links agree. -/
theorem heap_get_eq {t t1 : BinaryTree α} {j : Nat}
    (hv : (t1.heap[j]?).map Node.m_value = (t.heap[j]?).map Node.m_value)
    (hl : t1.get (Slot.left j) = t.get (Slot.left j))
    (hr : t1.get (Slot.right j) = t.get (Slot.right j)) : t1.heap[j]? = t.heap[j]? := by
  simp only [BinaryTree.get] at hl hr
  cases h1 : t1.heap[j]? <;> cases h2 : t.heap[j]? <;> simp_all
  rename_i a b
  cases a; cases b; simp_all

theorem Rep.congr {h h1 : List (Node α)} {s : Shape α} :
    ∀ {side link lo hi}, (∀ j ∈ s.ids, h1[j]? = h[j]?) → Rep h side link lo hi s →
      Rep h1 side link lo hi s := by
  induction s with
  | nil => intro side link lo hi _ hr; exact hr
  | node l i v r ihl ihr =>
    intro side link lo hi hj hr
    obtain ⟨hlink, nd, hnd, hv, hL, hR⟩ := hr
    refine ⟨hlink, nd, ?_, hv, ihl (fun j hjm => hj j ?_) hL, ihr (fun j hjm => hj j ?_) hR⟩
    · rw [hj i (by simp [Shape.ids])]; exact hnd
    · simp [Shape.ids, hjm]
    · simp [Shape.ids, hjm]

theorem Rep.child_eq {h : List (Node α)} {s : Shape α} {side link lo hi}
    (hr : Rep h side link lo hi s) : link.child = s.rootId := by
  cases s with
  | nil => simp only [Rep] at hr; subst hr; rfl
  | node l i v r => obtain ⟨hlink, -⟩ := hr; subst hlink; rfl

theorem Rep.root_pointer {h : List (Node α)} {s : Shape α} {link hi}
    (hr : Rep h Side.L link none hi s) : link.getPointer = s.rootId := by
  cases s with
  | nil => simp only [Rep] at hr; subst hr; rfl
  | node l i v r => obtain ⟨hlink, -⟩ := hr; subst hlink; rfl

end Basic

section Ins
variable {α : Type} [LinearOrder α]

/-- The branch of `insertLeft` and `insertRight` taken at a slot tagged `THREAD`. -/
theorem insertSide_thread {t : BinaryTree α} {side : Side} {sl : Slot} {lo hi : Ptr}
    {new : Nat} {nn : Node α} (fuel level : Nat)
    (hget : t.get sl = some ⟨side.thread lo hi, Tag.THREAD⟩)
    (hnew : t.heap[new]? = some nn) (hown : sl.owner ≠ some new) :
    ∃ t1, insertSide side (fuel + 1) t sl new (side.neighbour lo hi) level = some t1 ∧
      t1.get (Slot.left new) = some ⟨lo, Tag.THREAD⟩ ∧
      t1.get (Slot.right new) = some ⟨hi, Tag.THREAD⟩ ∧
      t1.get sl = some ⟨some new, Tag.NO_THREAD⟩ ∧
      (∀ sl1, sl1 ≠ sl → sl1.owner ≠ some new → t1.get sl1 = t.get sl1) ∧
      t1.heap.length = t.heap.length ∧
      (∀ j : Nat, (t1.heap[j]?).map Node.m_value = (t.heap[j]?).map Node.m_value) ∧
      t1.m_size = (t.m_size + 1) % 2 ^ 32 ∧
      t1.m_depth = max t.m_depth level := by
  -- the tree after the two counters have been updated
  obtain ⟨t2, ht2, hheap, hroot, hsize, hdepth⟩ :
      ∃ t2 : BinaryTree α,
        (if level > t.m_depth then
            ({ heap := t.heap, m_root := t.m_root, m_size := (t.m_size + 1) % 2 ^ 32,
               m_depth := level } : BinaryTree α)
          else { heap := t.heap, m_root := t.m_root, m_size := (t.m_size + 1) % 2 ^ 32,
                 m_depth := t.m_depth }) = t2 ∧
        t2.heap = t.heap ∧ t2.m_root = t.m_root ∧ t2.m_size = (t.m_size + 1) % 2 ^ 32 ∧
        t2.m_depth = max t.m_depth level := by
    refine ⟨_, rfl, ?_, ?_, ?_, ?_⟩
    · split <;> rfl
    · split <;> rfl
    · split <;> rfl
    · split
      · next h => exact (max_eq_right (le_of_lt h)).symm
      · next h => exact (max_eq_left (not_lt.mp h)).symm
  have hg2 : ∀ s1, t2.get s1 = t.get s1 := by
    intro s1; cases s1 <;> simp [BinaryTree.get, hheap, hroot]
  have hl0 : sl ≠ Slot.left new := fun e => hown (by rw [e]; rfl)
  have hr0 : sl ≠ Slot.right new := fun e => hown (by rw [e]; rfl)
  have hnl : ∃ w, t2.get (Slot.left new) = some w := by
    rw [hg2]; exact ⟨_, get_left_eq_some.mpr ⟨nn, hnew, rfl⟩⟩
  have hnr : ∃ w, t2.get (Slot.right new) = some w := by
    rw [hg2]; exact ⟨_, get_right_eq_some.mpr ⟨nn, hnew, rfl⟩⟩
  cases side with
  | L =>
    obtain ⟨w, hw⟩ := hnl
    obtain ⟨t3, h3⟩ := set_exists hw ⟨lo, Tag.THREAD⟩
    obtain ⟨w4, hw4⟩ := hnr
    obtain ⟨t4, h4⟩ := set_exists ((set_get_other h3 (by simp)).trans hw4) ⟨hi, Tag.THREAD⟩
    have hsl4 : t4.get sl = t.get sl := by
      rw [set_get_other h4 hr0, set_get_other h3 hl0, hg2]
    obtain ⟨t5, h5⟩ := set_exists (hsl4.trans hget) ⟨some new, Tag.NO_THREAD⟩
    have f3 := set_fields h3
    have f4 := set_fields h4
    have f5 := set_fields h5
    refine ⟨t5, ?_, ?_, ?_, set_get_same h5, ?_, ?_, ?_, ?_, ?_⟩
    · simp only [insertSide, insertLeft, hget, Side.thread, Side.neighbour, if_true, ht2, h3,
        Option.bind_eq_bind, Option.some_bind, h4, h5]
    · rw [set_get_other h5 (Ne.symm hl0), set_get_other h4 (by simp), set_get_same h3]
    · rw [set_get_other h5 (Ne.symm hr0), set_get_same h4]
    · intro sl1 h1 h2
      have e1 : sl1 ≠ Slot.left new := fun e => h2 (by rw [e]; rfl)
      have e2 : sl1 ≠ Slot.right new := fun e => h2 (by rw [e]; rfl)
      rw [set_get_other h5 h1, set_get_other h4 e2, set_get_other h3 e1, hg2]
    · rw [f5.1, f4.1, f3.1, hheap]
    · intro j; rw [f5.2.2.2, f4.2.2.2, f3.2.2.2, hheap]
    · rw [f5.2.1, f4.2.1, f3.2.1, hsize]
    · rw [f5.2.2.1, f4.2.2.1, f3.2.2.1, hdepth]
  | R =>
    obtain ⟨w, hw⟩ := hnr
    obtain ⟨t3, h3⟩ := set_exists hw ⟨hi, Tag.THREAD⟩
    obtain ⟨w4, hw4⟩ := hnl
    obtain ⟨t4, h4⟩ := set_exists ((set_get_other h3 (by simp)).trans hw4) ⟨lo, Tag.THREAD⟩
    have hsl4 : t4.get sl = t.get sl := by
      rw [set_get_other h4 hl0, set_get_other h3 hr0, hg2]
    obtain ⟨t5, h5⟩ := set_exists (hsl4.trans hget) ⟨some new, Tag.NO_THREAD⟩
    have f3 := set_fields h3
    have f4 := set_fields h4
    have f5 := set_fields h5
    refine ⟨t5, ?_, ?_, ?_, set_get_same h5, ?_, ?_, ?_, ?_, ?_⟩
    · simp only [insertSide, insertRight, hget, Side.thread, Side.neighbour, if_true, ht2, h3,
        Option.bind_eq_bind, Option.some_bind, h4, h5]
    · rw [set_get_other h5 (Ne.symm hl0), set_get_same h4]
    · rw [set_get_other h5 (Ne.symm hr0), set_get_other h4 (by simp), set_get_same h3]
    · intro sl1 h1 h2
      have e1 : sl1 ≠ Slot.left new := fun e => h2 (by rw [e]; rfl)
      have e2 : sl1 ≠ Slot.right new := fun e => h2 (by rw [e]; rfl)
      rw [set_get_other h5 h1, set_get_other h4 e1, set_get_other h3 e2, hg2]
    · rw [f5.1, f4.1, f3.1, hheap]
    · intro j; rw [f5.2.2.2, f4.2.2.2, f3.2.2.2, hheap]
    · rw [f5.2.1, f4.2.1, f3.2.1, hsize]
    · rw [f5.2.2.1, f4.2.2.1, f3.2.2.1, hdepth]

/-- The branch of `insertLeft` and `insertRight` taken at a slot tagged `NO_THREAD`. -/
theorem insertSide_child {t : BinaryTree α} {sl : Slot} {p new : Nat} {pn nn : Node α}
    (side : Side) (fuel level : Nat) (nb : Ptr)
    (hget : t.get sl = some ⟨some p, Tag.NO_THREAD⟩)
    (hp : t.heap[p]? = some pn) (hnew : t.heap[new]? = some nn) :
    insertSide side (fuel + 1) t sl new nb level =
      if pn.m_value > nn.m_value then
        insertSide Side.L fuel t (Slot.left p) new (some p) ((level + 1) % 2 ^ 32)
      else insertSide Side.R fuel t (Slot.right p) new (some p) ((level + 1) % 2 ^ 32) := by
  cases side
  · simp only [insertSide]
    rw [insertLeft]
    simp [hget, hp, hnew, Node.value]
  · simp only [insertSide]
    rw [insertRight]
    simp [hget, hp, hnew, Node.value]

end Ins

section Ins
variable {α : Type}

theorem Shape.height_lt_left {l r : Shape α} {i : Nat} {v : α} {fuel : Nat}
    (h : (Shape.node l i v r).height < fuel + 1) : l.height < fuel := by
  simp only [Shape.height] at h
  have := le_max_left l.height r.height
  omega

theorem Shape.height_lt_right {l r : Shape α} {i : Nat} {v : α} {fuel : Nat}
    (h : (Shape.node l i v r).height < fuel + 1) : r.height < fuel := by
  simp only [Shape.height] at h
  have := le_max_right l.height r.height
  omega

variable [LinearOrder α]

theorem level_step (level k : Nat) :
    ((level + 1) % 2 ^ 32 + k) % 2 ^ 32 = (level + (k + 1)) % 2 ^ 32 := by
  omega

/-- One descent of `insertLeft` or `insertRight` from a slot that stands for `s` ends, and
    leaves the slot standing for `s` with the new node inserted. -/
theorem insertSide_spec (x : α) (new : Nat) (s : Shape α) :
    ∀ (side : Side) (sl : Slot) (link : NodePtr) (lo hi : Ptr) (level fuel : Nat)
      (t : BinaryTree α),
      t.get sl = some link → Rep t.heap side link lo hi s →
      (∃ nn, t.heap[new]? = some nn ∧ nn.m_value = x) →
      new ∉ s.ids → s.ids.Nodup → sl.owner ≠ some new → (∀ o ∈ s.ids, sl.owner ≠ some o) →
      s.height < fuel → level < 2 ^ 32 →
      ∃ t1 fs, insertSide side fuel t sl new (side.neighbour lo hi) level = some t1 ∧
        InsertPost t t1 side sl fs lo hi s x new level := by
  induction s with
  | nil =>
    intro side sl link lo hi level fuel t hget hrep hnew _ _ hown _ hfuel hlevel
    obtain ⟨nn, hnn, hx⟩ := hnew
    simp only [Rep] at hrep
    subst hrep
    obtain ⟨k, rfl⟩ : ∃ k, fuel = k + 1 := ⟨fuel - 1, by omega⟩
    obtain ⟨t1, hins, hl, hr, hs, hframe, hlen, hval, hsize, hdepth⟩ :=
      insertSide_thread k level hget hnn hown
    refine ⟨t1, sl, hins, ?_⟩
    obtain ⟨n1, hn1, hn1l⟩ := get_left_eq_some.mp hl
    obtain ⟨n2, hn2, hn2r⟩ := get_right_eq_some.mp hr
    have hn12 : n2 = n1 := by rw [hn1] at hn2; exact (Option.some.inj hn2).symm
    subst hn12
    have hv1 : n2.m_value = x := by
      have := hval new
      rw [hn1, hnn] at this
      simpa [hx] using this
    exact {
      length_eq := hlen
      value_eq := hval
      final_mem := Or.inl rfl
      final_old := ⟨_, hget⟩
      final_new := hs
      frame := hframe
      rep := ⟨_, hs, rfl, n2, hn1, hv1, by simp only [Rep, hn1l, Side.thread],
        by simp only [Rep, hn2r, Side.thread]⟩
      size_eq := hsize
      depth_eq := by
        rw [hdepth]; simp only [Shape.pathLen, Nat.add_zero]; rw [Nat.mod_eq_of_lt hlevel] }
  | node l p v r ihl ihr =>
    intro side sl link lo hi level fuel t hget hrep hnew hfresh hnodup hown hownS hfuel hlevel
    obtain ⟨nn, hnn, hx⟩ := hnew
    obtain ⟨hlink, nd, hnd, hv, hL, hR⟩ := hrep
    subst hlink
    obtain ⟨k, rfl⟩ : ∃ k, fuel = k + 1 := ⟨fuel - 1, by omega⟩
    simp only [Shape.ids, List.mem_append, List.mem_cons, not_or] at hfresh
    have hnd2 := hnodup
    simp only [Shape.ids] at hnd2
    rw [List.nodup_append] at hnd2
    obtain ⟨hndl, hndpr, hdisj⟩ := hnd2
    rw [List.nodup_cons] at hndpr
    obtain ⟨hpr, hndr⟩ := hndpr
    have hpl : p ∉ l.ids := fun hm => hdisj hm (List.mem_cons_self _ _)
    have hlr : ∀ j ∈ l.ids, j ∉ r.ids := fun j hj hjr => hdisj hj (List.mem_cons_of_mem _ hjr)
    have hpnew : p ≠ new := fun e => hfresh.2.1 e.symm
    have hslp : sl.owner ≠ some p := hownS p (by simp [Shape.ids])
    have hlev1 : (level + 1) % 2 ^ 32 < 2 ^ 32 := Nat.mod_lt _ (by norm_num)
    rw [insertSide_child side k level _ hget hnd hnn, hv, hx]
    by_cases hc : v > x
    · -- the new node goes into the left subtree
      rw [if_pos hc]
      obtain ⟨t1, fs, hins, post⟩ := ihl Side.L (Slot.left p) nd.m_leftChild lo (some p)
        ((level + 1) % 2 ^ 32) k t (get_left_eq_some.mpr ⟨nd, hnd, rfl⟩) hL ⟨nn, hnn, hx⟩
        hfresh.1 hndl (by simpa [Slot.owner] using hpnew)
        (fun o ho => by simp only [Slot.owner, ne_eq, Option.some.injEq]; rintro rfl; exact hpl ho)
        (Shape.height_lt_left hfuel) hlev1
      refine ⟨t1, fs, hins, ?_⟩
      have hfsown : fs.owner = some p ∨ ∃ o ∈ l.ids, fs.owner = some o := by
        rcases post.final_mem with h | h
        · left; rw [h]; rfl
        · right; exact h
      have hfs_sl : sl ≠ fs := by
        rintro rfl
        rcases hfsown with h | ⟨o, ho, h⟩
        · exact hslp h
        · exact hownS o (by simp [Shape.ids, ho]) h
      have hfs_rp : Slot.right p ≠ fs := by
        rintro rfl
        rcases post.final_mem with h | ⟨o, ho, h⟩
        · cases h
        · simp only [Slot.owner, Option.some.injEq] at h; subst h; exact hpl ho
      have hsame : ∀ j ∈ r.ids, t1.heap[j]? = t.heap[j]? := by
        intro j hj
        have hjnew : j ≠ new := fun e => hfresh.2.2 (e ▸ hj)
        have hjfs : ∀ sl1 : Slot, sl1.owner = some j → sl1 ≠ fs := by
          rintro sl1 h1 rfl
          rcases hfsown with h | ⟨o, ho, h⟩
          · rw [h1] at h; exact hpr (Option.some.inj h ▸ hj)
          · rw [h1] at h; exact hlr o ho (Option.some.inj h ▸ hj)
        exact heap_get_eq (post.value_eq j)
          (post.frame _ (hjfs _ rfl) (by simpa [Slot.owner] using hjnew))
          (post.frame _ (hjfs _ rfl) (by simpa [Slot.owner] using hjnew))
      obtain ⟨link1, hlink1, hrep1⟩ := post.rep
      obtain ⟨nd1, hnd1, hnd1l⟩ := get_left_eq_some.mp hlink1
      have hnd1r : nd1.m_rightChild = nd.m_rightChild := by
        have := post.frame (Slot.right p) hfs_rp (by simpa [Slot.owner] using hpnew)
        simp only [BinaryTree.get, hnd1, hnd, Option.map_some', Option.some.injEq] at this
        exact this
      have hnd1v : nd1.m_value = v := by
        have := post.value_eq p
        simp only [hnd1, hnd, Option.map_some', Option.some.injEq] at this
        rw [this, hv]
      exact {
        length_eq := post.length_eq
        value_eq := post.value_eq
        final_mem := Or.inr (by
          rcases hfsown with h | ⟨o, ho, h⟩
          · exact ⟨p, by simp [Shape.ids], h⟩
          · exact ⟨o, by simp [Shape.ids, ho], h⟩)
        final_old := post.final_old
        final_new := post.final_new
        frame := post.frame
        rep := ⟨_, (post.frame sl hfs_sl hown).trans hget, by
          simp only [Shape.ins, if_pos hc]
          exact ⟨rfl, nd1, hnd1, hnd1v, hnd1l ▸ hrep1, hnd1r ▸ Rep.congr hsame hR⟩⟩
        size_eq := post.size_eq
        depth_eq := by
          rw [post.depth_eq, level_step]; simp only [Shape.pathLen, if_pos hc] }
    · -- the new node goes into the right subtree
      rw [if_neg hc]
      obtain ⟨t1, fs, hins, post⟩ := ihr Side.R (Slot.right p) nd.m_rightChild (some p) hi
        ((level + 1) % 2 ^ 32) k t (get_right_eq_some.mpr ⟨nd, hnd, rfl⟩) hR ⟨nn, hnn, hx⟩
        hfresh.2.2 hndr (by simpa [Slot.owner] using hpnew)
        (fun o ho => by simp only [Slot.owner, ne_eq, Option.some.injEq]; rintro rfl; exact hpr ho)
        (Shape.height_lt_right hfuel) hlev1
      refine ⟨t1, fs, hins, ?_⟩
      have hfsown : fs.owner = some p ∨ ∃ o ∈ r.ids, fs.owner = some o := by
        rcases post.final_mem with h | h
        · left; rw [h]; rfl
        · right; exact h
      have hfs_sl : sl ≠ fs := by
        rintro rfl
        rcases hfsown with h | ⟨o, ho, h⟩
        · exact hslp h
        · exact hownS o (by simp [Shape.ids, ho]) h
      have hfs_lp : Slot.left p ≠ fs := by
        rintro rfl
        rcases post.final_mem with h | ⟨o, ho, h⟩
        · cases h
        · simp only [Slot.owner, Option.some.injEq] at h; subst h; exact hpr ho
      have hsame : ∀ j ∈ l.ids, t1.heap[j]? = t.heap[j]? := by
        intro j hj
        have hjnew : j ≠ new := fun e => hfresh.1 (e ▸ hj)
        have hjfs : ∀ sl1 : Slot, sl1.owner = some j → sl1 ≠ fs := by
          rintro sl1 h1 rfl
          rcases hfsown with h | ⟨o, ho, h⟩
          · rw [h1] at h; exact hpl (Option.some.inj h ▸ hj)
          · rw [h1] at h; exact hlr j hj (Option.some.inj h ▸ ho)
        exact heap_get_eq (post.value_eq j)
          (post.frame _ (hjfs _ rfl) (by simpa [Slot.owner] using hjnew))
          (post.frame _ (hjfs _ rfl) (by simpa [Slot.owner] using hjnew))
      obtain ⟨link1, hlink1, hrep1⟩ := post.rep
      obtain ⟨nd1, hnd1, hnd1r⟩ := get_right_eq_some.mp hlink1
      have hnd1l : nd1.m_leftChild = nd.m_leftChild := by
        have := post.frame (Slot.left p) hfs_lp (by simpa [Slot.owner] using hpnew)
        simp only [BinaryTree.get, hnd1, hnd, Option.map_some', Option.some.injEq] at this
        exact this
      have hnd1v : nd1.m_value = v := by
        have := post.value_eq p
        simp only [hnd1, hnd, Option.map_some', Option.some.injEq] at this
        rw [this, hv]
      exact {
        length_eq := post.length_eq
        value_eq := post.value_eq
        final_mem := Or.inr (by
          rcases hfsown with h | ⟨o, ho, h⟩
          · exact ⟨p, by simp [Shape.ids], h⟩
          · exact ⟨o, by simp [Shape.ids, ho], h⟩)
        final_old := post.final_old
        final_new := post.final_new
        frame := post.frame
        rep := ⟨_, (post.frame sl hfs_sl hown).trans hget, by
          simp only [Shape.ins, if_neg hc]
          exact ⟨rfl, nd1, hnd1, hnd1v, hnd1l ▸ Rep.congr hsame hL, hnd1r ▸ hrep1⟩⟩
        size_eq := post.size_eq
        depth_eq := by
          rw [post.depth_eq, level_step]; simp only [Shape.pathLen, if_neg hc] }

end Ins

section Pure
variable {α : Type}

theorem Shape.height_le_length (s : Shape α) : s.height ≤ s.ids.length := by
  induction s with
  | nil => simp [Shape.height, Shape.ids]
  | node l i v r ihl ihr =>
    simp only [Shape.height, Shape.ids, List.length_append, List.length_cons]
    have : max l.height r.height ≤ l.ids.length + r.ids.length :=
      max_le (by omega) (by omega)
    omega

theorem Shape.vals_length (s : Shape α) : s.vals.length = s.ids.length := by
  induction s with
  | nil => rfl
  | node l i v r ihl ihr => simp [Shape.vals, Shape.ids, ihl, ihr]

variable [LinearOrder α]

theorem Shape.ids_ins_perm (x : α) (new : Nat) (s : Shape α) :
    (s.ins x new).ids.Perm (new :: s.ids) := by
  induction s with
  | nil => simp [Shape.ins, Shape.ids]
  | node l i v r ihl ihr =>
    simp only [Shape.ins]
    split
    · simp only [Shape.ids]
      exact (List.Perm.append_right _ ihl).trans (by simp)
    · simp only [Shape.ids]
      refine (List.Perm.append_left _ (List.Perm.cons _ ihr)).trans ?_
      refine (List.Perm.append_left _ (List.Perm.swap _ _ _)).trans ?_
      exact List.perm_middle

theorem Shape.vals_ins_perm (x : α) (new : Nat) (s : Shape α) :
    (s.ins x new).vals.Perm (x :: s.vals) := by
  induction s with
  | nil => simp [Shape.ins, Shape.vals]
  | node l i v r ihl ihr =>
    simp only [Shape.ins]
    split
    · simp only [Shape.vals]
      exact (List.Perm.append_right _ ihl).trans (by simp)
    · simp only [Shape.vals]
      refine (List.Perm.append_left _ (List.Perm.cons _ ihr)).trans ?_
      refine (List.Perm.append_left _ (List.Perm.swap _ _ _)).trans ?_
      exact List.perm_middle

theorem Shape.ofList_append_singleton (xs : List α) (x : α) :
    Shape.ofList (xs ++ [x]) = (Shape.ofList xs).ins x (Shape.ofList xs).ids.length := by
  simp [Shape.ofList, List.foldl_append]

theorem Shape.ids_ofList_perm (xs : List α) :
    (Shape.ofList xs).ids.Perm (List.range xs.length) := by
  induction xs using List.reverseRecOn with
  | nil => simp [Shape.ofList, Shape.ids]
  | append_singleton xs x ih =>
    rw [Shape.ofList_append_singleton]
    refine (Shape.ids_ins_perm _ _ _).trans ?_
    rw [ih.length_eq, List.length_range, List.length_append, List.length_singleton,
      List.range_succ]
    exact (List.Perm.cons _ ih).trans (List.perm_append_singleton _ _).symm

theorem Shape.ids_ofList_length (xs : List α) : (Shape.ofList xs).ids.length = xs.length := by
  rw [(Shape.ids_ofList_perm xs).length_eq, List.length_range]

theorem Shape.ids_ofList_nodup (xs : List α) : (Shape.ofList xs).ids.Nodup :=
  (Shape.ids_ofList_perm xs).nodup_iff.mpr (List.nodup_range _)

theorem Shape.mem_ids_ofList {xs : List α} {j : Nat} :
    j ∈ (Shape.ofList xs).ids ↔ j < xs.length := by
  rw [(Shape.ids_ofList_perm xs).mem_iff, List.mem_range]

theorem Shape.vals_ofList_perm (xs : List α) : (Shape.ofList xs).vals.Perm xs := by
  induction xs using List.reverseRecOn with
  | nil => simp [Shape.ofList, Shape.vals]
  | append_singleton xs x ih =>
    rw [Shape.ofList_append_singleton]
    refine (Shape.vals_ins_perm _ _ _).trans ?_
    exact (List.Perm.cons _ ih).trans (List.perm_append_singleton _ _).symm

theorem Shape.bst_ins (x : α) (new : Nat) (s : Shape α) (h : s.Bst) : (s.ins x new).Bst := by
  induction s with
  | nil => simp [Shape.ins, Shape.Bst, Shape.vals]
  | node l i v r ihl ihr =>
    obtain ⟨h1, h2, h3, h4⟩ := h
    simp only [Shape.ins]
    split
    · next hc =>
      refine ⟨fun u hu => ?_, h2, ihl h3, h4⟩
      rcases List.mem_cons.mp ((Shape.vals_ins_perm x new l).mem_iff.mp hu) with rfl | hu
      · exact hc
      · exact h1 u hu
    · next hc =>
      refine ⟨h1, fun u hu => ?_, h3, ihr h4⟩
      rcases List.mem_cons.mp ((Shape.vals_ins_perm x new r).mem_iff.mp hu) with rfl | hu
      · exact not_lt.mp hc
      · exact h2 u hu

theorem Shape.bst_ofList (xs : List α) : (Shape.ofList xs).Bst := by
  induction xs using List.reverseRecOn with
  | nil => simp [Shape.ofList, Shape.Bst]
  | append_singleton xs x ih =>
    rw [Shape.ofList_append_singleton]
    exact Shape.bst_ins _ _ _ ih

theorem Shape.sorted_of_bst (s : Shape α) (h : s.Bst) : s.vals.Sorted (· ≤ ·) := by
  induction s with
  | nil => simp [Shape.vals]
  | node l i v r ihl ihr =>
    obtain ⟨h1, h2, h3, h4⟩ := h
    simp only [Shape.vals, List.Sorted, List.pairwise_append, List.pairwise_cons]
    refine ⟨ihl h3, ⟨h2, ihr h4⟩, fun a ha b hb => ?_⟩
    rcases List.mem_cons.mp hb with rfl | hb
    · exact le_of_lt (h1 a ha)
    · exact le_trans (le_of_lt (h1 a ha)) (h2 b hb)

end Pure

section Build
variable {α : Type} [LinearOrder α]

/-- One call of `insert` on a tree in the state `Inv xs` returns, and its descent achieves
    `InsertPost` from the root slot. -/
theorem insert_post {xs : List α} {t : BinaryTree α} (hinv : Inv xs t) (x : α) :
    ∃ t1 fs, t.insert x = some t1 ∧
      InsertPost { t with heap := t.heap ++ [⟨x, NodePtr.null, NodePtr.null⟩] } t1 Side.L
        Slot.root fs none none (Shape.ofList xs) x xs.length 1 := by
  obtain ⟨hrep, hlen, hsize⟩ := hinv
  have hrep1 : Rep (t.heap ++ [(⟨x, NodePtr.null, NodePtr.null⟩ : Node α)]) Side.L t.m_root
      none none (Shape.ofList xs) := by
    refine Rep.congr (fun j hj => ?_) hrep
    have : j < t.heap.length := by rw [hlen]; exact Shape.mem_ids_ofList.mp hj
    exact List.getElem?_append_left this
  have hfuel : (Shape.ofList xs).height < t.heap.length + 1 + 1 := by
    have := Shape.height_le_length (Shape.ofList xs)
    rw [Shape.ids_ofList_length] at this
    omega
  have := insertSide_spec x xs.length (Shape.ofList xs) Side.L Slot.root t.m_root none none 1
    (t.heap.length + 1 + 1)
    { t with heap := t.heap ++ [⟨x, NodePtr.null, NodePtr.null⟩] } rfl hrep1
    ⟨⟨x, NodePtr.null, NodePtr.null⟩, by simp [← hlen], rfl⟩
    (fun h => by have := Shape.mem_ids_ofList.mp h; omega)
    (Shape.ids_ofList_nodup xs) (by simp [Slot.owner]) (fun o _ => by simp [Slot.owner])
    hfuel (by norm_num)
  obtain ⟨t1, fs, hins, post⟩ := this
  refine ⟨t1, fs, ?_, post⟩
  simpa [BinaryTree.insert, insertSide, hlen, Side.neighbour] using hins

theorem insert_inv {xs : List α} {t : BinaryTree α} (hinv : Inv xs t) (x : α) :
    ∃ t1, t.insert x = some t1 ∧ Inv (xs ++ [x]) t1 := by
  obtain ⟨t1, fs, hins, post⟩ := insert_post hinv x
  refine ⟨t1, hins, ?_⟩
  obtain ⟨link1, hl1, hrep1⟩ := post.rep
  simp only [BinaryTree.get, Option.some.injEq] at hl1
  subst hl1
  refine ⟨?_, ?_, ?_⟩
  · rw [Shape.ofList_append_singleton, Shape.ids_ofList_length]; exact hrep1
  · rw [post.length_eq]; simp [hinv.length_eq]
  · rw [post.size_eq]; simp only [hinv.size_eq, List.length_append, List.length_singleton]
    omega

theorem build_append_singleton (xs : List α) (x : α) :
    build (xs ++ [x]) = (build xs).bind fun t => t.insert x := by
  simp [build, List.foldlM_append]

/-- Every sequence of insertions returns, in the state described by `Inv`. -/
theorem build_inv (xs : List α) : ∃ t, build xs = some t ∧ Inv xs t := by
  induction xs using List.reverseRecOn with
  | nil =>
    refine ⟨BinaryTree.empty, rfl, ?_, rfl, rfl⟩
    simp [Shape.ofList, Rep, BinaryTree.empty, NodePtr.null, Side.thread]
  | append_singleton xs x ih =>
    obtain ⟨t, ht, hinv⟩ := ih
    obtain ⟨t1, h1, hinv1⟩ := insert_inv hinv x
    exact ⟨t1, by rw [build_append_singleton, ht]; exact h1, hinv1⟩

end Build

section ReadOnly
variable {α : Type}

theorem Node.leftChild_eq (nd : Node α) : nd.leftChild = nd.m_leftChild.child := rfl

theorem Node.rightChild_eq (nd : Node α) : nd.rightChild = nd.m_rightChild.child := rfl

theorem inorderAux_rep {σ : Type} (f : σ → α → σ) {h : List (Node α)} (s : Shape α) :
    ∀ {side link lo hi} (fuel : Nat) (st : σ), Rep h side link lo hi s → s.height < fuel →
      inorderAux h f fuel link.child st = some (s.vals.foldl f st) := by
  induction s with
  | nil =>
    intro side link lo hi fuel st hr hf
    obtain ⟨k, rfl⟩ : ∃ k, fuel = k + 1 := ⟨fuel - 1, by omega⟩
    rw [hr.child_eq]; rfl
  | node l i v r ihl ihr =>
    intro side link lo hi fuel st hr hf
    obtain ⟨k, rfl⟩ : ∃ k, fuel = k + 1 := ⟨fuel - 1, by omega⟩
    rw [hr.child_eq]
    obtain ⟨-, nd, hnd, hv, hL, hR⟩ := hr
    simp only [Shape.rootId, inorderAux, hnd, Option.some_bind, Node.leftChild_eq,
      Node.rightChild_eq, ihl k st hL (Shape.height_lt_left hf),
      ihr k _ hR (Shape.height_lt_right hf), Shape.vals, List.foldl_append, List.foldl_cons,
      Node.value, hv]

theorem preorderAux_rep {σ : Type} (f : σ → α → σ) {h : List (Node α)} (s : Shape α) :
    ∀ {side link lo hi} (fuel : Nat) (st : σ), Rep h side link lo hi s → s.height < fuel →
      preorderAux h f fuel link.child st = some (s.preVals.foldl f st) := by
  induction s with
  | nil =>
    intro side link lo hi fuel st hr hf
    obtain ⟨k, rfl⟩ : ∃ k, fuel = k + 1 := ⟨fuel - 1, by omega⟩
    rw [hr.child_eq]; rfl
  | node l i v r ihl ihr =>
    intro side link lo hi fuel st hr hf
    obtain ⟨k, rfl⟩ : ∃ k, fuel = k + 1 := ⟨fuel - 1, by omega⟩
    rw [hr.child_eq]
    obtain ⟨-, nd, hnd, hv, hL, hR⟩ := hr
    simp only [Shape.rootId, preorderAux, hnd, Option.some_bind, Node.leftChild_eq,
      Node.rightChild_eq, ihl k _ hL (Shape.height_lt_left hf),
      ihr k _ hR (Shape.height_lt_right hf), Shape.preVals, List.foldl_append, List.foldl_cons,
      Node.value, hv]

theorem postorderAux_rep {σ : Type} (f : σ → α → σ) {h : List (Node α)} (s : Shape α) :
    ∀ {side link lo hi} (fuel : Nat) (st : σ), Rep h side link lo hi s → s.height < fuel →
      postorderAux h f fuel link.child st = some (s.postVals.foldl f st) := by
  induction s with
  | nil =>
    intro side link lo hi fuel st hr hf
    obtain ⟨k, rfl⟩ : ∃ k, fuel = k + 1 := ⟨fuel - 1, by omega⟩
    rw [hr.child_eq]; rfl
  | node l i v r ihl ihr =>
    intro side link lo hi fuel st hr hf
    obtain ⟨k, rfl⟩ : ∃ k, fuel = k + 1 := ⟨fuel - 1, by omega⟩
    rw [hr.child_eq]
    obtain ⟨-, nd, hnd, hv, hL, hR⟩ := hr
    simp only [Shape.rootId, postorderAux, hnd, Option.some_bind, Node.leftChild_eq,
      Node.rightChild_eq, ihl k _ hL (Shape.height_lt_left hf),
      ihr k _ hR (Shape.height_lt_right hf), Shape.postVals, List.foldl_append, List.foldl_cons,
      List.foldl_nil, Node.value, hv]

theorem inorderNodesAux_rep {h : List (Node α)} (s : Shape α) :
    ∀ {side link lo hi} (fuel : Nat), Rep h side link lo hi s → s.height < fuel →
      inorderNodesAux h fuel link.child = some s.ids := by
  induction s with
  | nil =>
    intro side link lo hi fuel hr hf
    obtain ⟨k, rfl⟩ : ∃ k, fuel = k + 1 := ⟨fuel - 1, by omega⟩
    rw [hr.child_eq]; rfl
  | node l i v r ihl ihr =>
    intro side link lo hi fuel hr hf
    obtain ⟨k, rfl⟩ : ∃ k, fuel = k + 1 := ⟨fuel - 1, by omega⟩
    rw [hr.child_eq]
    obtain ⟨-, nd, hnd, hv, hL, hR⟩ := hr
    simp only [Shape.rootId, inorderNodesAux, hnd, Option.some_bind, Node.leftChild_eq,
      Node.rightChild_eq, ihl k hL (Shape.height_lt_left hf),
      ihr k hR (Shape.height_lt_right hf), Shape.ids]

theorem Shape.preVals_perm (s : Shape α) : s.preVals.Perm s.vals := by
  induction s with
  | nil => rfl
  | node l i v r ihl ihr =>
    simp only [Shape.preVals, Shape.vals]
    exact ((ihl.append ihr).cons v).trans List.perm_middle.symm

theorem Shape.postVals_perm (s : Shape α) : s.postVals.Perm s.vals := by
  induction s with
  | nil => rfl
  | node l i v r ihl ihr =>
    simp only [Shape.postVals, Shape.vals]
    refine List.Perm.append ihl ?_
    exact (List.perm_append_singleton v _).trans (ihr.cons v)

theorem foldl_log (vs : List α) (init : List α) :
    vs.foldl (fun log v => log ++ [v]) init = init ++ vs := by
  induction vs generalizing init with
  | nil => simp
  | cons a vs ih => simp [ih]

theorem getLast?_append_cons_of_ne_nil {β : Type} (A : List β) (i : β) {R : List β}
    (h : R ≠ []) : (A ++ i :: R).getLast? = R.getLast? := by
  cases R with
  | nil => exact absurd rfl h
  | cons b R => simp [List.getLast?_append, List.getLast?_cons]

theorem Shape.ids_node_ne_nil (a : Shape α) (j : Nat) (w : α) (b : Shape α) :
    (Shape.node a j w b).ids ≠ [] := by
  simp [Shape.ids]

theorem Shape.lastId_eq (s : Shape α) : s.lastId = s.ids.getLast? := by
  induction s with
  | nil => rfl
  | node l i v r ihl ihr =>
    cases r with
    | nil => simp [Shape.lastId, Shape.ids]
    | node a j w b =>
      have e : (Shape.node l i v (Shape.node a j w b)).ids =
          l.ids ++ i :: (Shape.node a j w b).ids := rfl
      rw [e, getLast?_append_cons_of_ne_nil _ _ (Shape.ids_node_ne_nil a j w b), ← ihr]
      rfl

theorem Shape.firstId_eq (s : Shape α) : s.firstId = s.ids.head? := by
  induction s with
  | nil => rfl
  | node l i v r ihl ihr =>
    cases l with
    | nil => simp [Shape.firstId, Shape.ids]
    | node a j w b =>
      have e : (Shape.node (Shape.node a j w b) i v r).ids =
          (Shape.node a j w b).ids ++ i :: r.ids := rfl
      rw [e, List.head?_append_of_ne_nil _ (Shape.ids_node_ne_nil a j w b), ← ihl]
      rfl

theorem previousLoop_rep {h : List (Node α)} (s : Shape α) :
    ∀ {side link lo hi} (fuel : Nat), Rep h side link lo hi s → s.height ≤ fuel →
      s ≠ Shape.nil → Node.previousLoop h fuel s.rootId = some s.lastId := by
  induction s with
  | nil => intro _ _ _ _ _ _ _ hne; exact absurd rfl hne
  | node l i v r ihl ihr =>
    intro side link lo hi fuel hr hf _
    obtain ⟨k, rfl⟩ : ∃ k, fuel = k + 1 := ⟨fuel - 1, by simp [Shape.height] at hf; omega⟩
    obtain ⟨-, nd, hnd, hv, hL, hR⟩ := hr
    have hk : r.height ≤ k := by
      simp only [Shape.height] at hf
      have := le_max_right l.height r.height
      omega
    cases r with
    | nil =>
      simp [Shape.rootId, Node.previousLoop, hnd, Node.rightChild_eq, hR.child_eq, Shape.lastId]
    | node a j w b =>
      have := ihr k hR hk (by simp)
      simp only [Shape.rootId] at this
      simp [Shape.rootId, Node.previousLoop, hnd, Node.rightChild_eq, hR.child_eq, Shape.lastId,
        this]

theorem nextLoop_rep {h : List (Node α)} (s : Shape α) :
    ∀ {side link lo hi} (fuel : Nat), Rep h side link lo hi s → s.height ≤ fuel →
      s ≠ Shape.nil → Node.nextLoop h fuel s.rootId = some s.firstId := by
  induction s with
  | nil => intro _ _ _ _ _ _ _ hne; exact absurd rfl hne
  | node l i v r ihl ihr =>
    intro side link lo hi fuel hr hf _
    obtain ⟨k, rfl⟩ : ∃ k, fuel = k + 1 := ⟨fuel - 1, by simp [Shape.height] at hf; omega⟩
    obtain ⟨-, nd, hnd, hv, hL, hR⟩ := hr
    have hk : l.height ≤ k := by
      simp only [Shape.height] at hf
      have := le_max_left l.height r.height
      omega
    cases l with
    | nil =>
      simp [Shape.rootId, Node.nextLoop, hnd, Node.leftChild_eq, hL.child_eq, Shape.firstId]
    | node a j w b =>
      have := ihl k hL hk (by simp)
      simp only [Shape.rootId] at this
      simp [Shape.rootId, Node.nextLoop, hnd, Node.leftChild_eq, hL.child_eq, Shape.firstId,
        this]

theorem minimumLoop_eq (h : List (Node α)) (fuel : Nat) (p : Ptr) :
    minimumLoop h fuel p = Node.nextLoop h fuel p := by
  induction fuel generalizing p with
  | zero => rfl
  | succ k ih =>
    cases p with
    | none => rfl
    | some c =>
      simp only [minimumLoop, Node.nextLoop]
      cases h[c]? with
      | none => rfl
      | some nd =>
        simp only
        cases nd.leftChild with
        | none => rfl
        | some l => exact ih _

theorem maximumLoop_eq (h : List (Node α)) (fuel : Nat) (p : Ptr) :
    maximumLoop h fuel p = Node.previousLoop h fuel p := by
  induction fuel generalizing p with
  | zero => rfl
  | succ k ih =>
    cases p with
    | none => rfl
    | some c =>
      simp only [maximumLoop, Node.previousLoop]
      cases h[c]? with
      | none => rfl
      | some nd =>
        simp only
        cases nd.rightChild with
        | none => rfl
        | some l => exact ih _

end ReadOnly

section Lists

theorem prevAt_append_left (lo : Ptr) (A B : List Nat) (p i : Nat) (h : i < A.length) :
    prevAt lo (A ++ p :: B) i = prevAt lo A i := by
  unfold prevAt
  split
  · rfl
  · rw [List.getElem?_append_left (by omega)]

theorem nextAt_append_left (hi : Ptr) (A B : List Nat) (p i : Nat) (h : i < A.length) :
    nextAt hi (A ++ p :: B) i = nextAt (some p) A i := by
  unfold nextAt
  rw [if_neg (by rw [List.length_append, List.length_cons]; omega)]
  split
  · next h1 => rw [List.getElem?_append_right (by omega)]; simp [h1]
  · next h1 => rw [List.getElem?_append_left (by omega)]

theorem prevAt_append_right (lo : Ptr) (A B : List Nat) (p j : Nat) :
    prevAt lo (A ++ p :: B) (A.length + 1 + j) = prevAt (some p) B j := by
  unfold prevAt
  rw [if_neg (by omega), List.getElem?_append_right (by omega)]
  split
  · next h1 => subst h1; simp
  · next h1 =>
    obtain ⟨k, rfl⟩ : ∃ k, j = k + 1 := ⟨j - 1, by omega⟩
    have : A.length + 1 + (k + 1) - 1 - A.length = k + 1 := by omega
    rw [this]; simp

theorem nextAt_append_right (hi : Ptr) (A B : List Nat) (p j : Nat) :
    nextAt hi (A ++ p :: B) (A.length + 1 + j) = nextAt hi B j := by
  unfold nextAt
  have hl : (A ++ p :: B).length = A.length + 1 + B.length := by
    rw [List.length_append, List.length_cons]; omega
  by_cases hj : j + 1 = B.length
  · rw [if_pos hj, if_pos (by rw [hl]; omega)]
  · rw [if_neg hj, if_neg (by rw [hl]; omega), List.getElem?_append_right (by omega)]
    have : A.length + 1 + j + 1 - A.length = (j + 1) + 1 := by omega
    rw [this]; simp

theorem prevAt_mid (lo : Ptr) (A B : List Nat) (p : Nat) (h : A ≠ []) :
    prevAt lo (A ++ p :: B) A.length = A.getLast? := by
  unfold prevAt
  have : 0 < A.length := List.length_pos.mpr h
  rw [if_neg (by omega), List.getElem?_append_left (by omega), List.getLast?_eq_getElem?]

theorem nextAt_mid (hi : Ptr) (A B : List Nat) (p : Nat) (h : B ≠ []) :
    nextAt hi (A ++ p :: B) A.length = B.head? := by
  unfold nextAt
  have : 0 < B.length := List.length_pos.mpr h
  rw [if_neg (by rw [List.length_append, List.length_cons]; omega),
    List.getElem?_append_right (by omega)]
  cases B with
  | nil => exact absurd rfl h
  | cons b B => simp

end Lists

section Neighbours
variable {α : Type}

/-- Under `Rep`, the node at position `i` of the in-order listing holds the value at position
    `i`, its threads point at its neighbours in the listing, and `previous` and `next` return
    those neighbours. -/
theorem Rep.neighbours {h : List (Node α)} (s : Shape α) :
    ∀ {side link lo hi}, Rep h side link lo hi s → s.height ≤ h.length + 1 →
      ∀ i n, s.ids[i]? = some n →
        ∃ nd, h[n]? = some nd ∧ s.vals[i]? = some nd.m_value ∧
          (nd.m_leftChild.getInt = Tag.THREAD →
            nd.m_leftChild.getPointer = prevAt lo s.ids i) ∧
          (nd.m_rightChild.getInt = Tag.THREAD →
            nd.m_rightChild.getPointer = nextAt hi s.ids i) ∧
          nd.previous h = some (prevAt lo s.ids i) ∧
          nd.next h = some (nextAt hi s.ids i) := by
  induction s with
  | nil => intro side link lo hi _ _ i n hi; simp [Shape.ids] at hi
  | node l p v r ihl ihr =>
    intro side link lo hi hr hh i n hin
    obtain ⟨-, nd, hnd, hv, hL, hR⟩ := hr
    have hhl : l.height ≤ h.length := by
      simp only [Shape.height] at hh
      have := le_max_left l.height r.height
      omega
    have hhr : r.height ≤ h.length := by
      simp only [Shape.height] at hh
      have := le_max_right l.height r.height
      omega
    simp only [Shape.ids, Shape.vals] at hin ⊢
    rcases Nat.lt_trichotomy i l.ids.length with hlt | heq | hgt
    · -- a node of the left subtree
      rw [List.getElem?_append_left hlt] at hin
      obtain ⟨nd1, h1, h2, h3, h4, h5, h6⟩ := ihl hL (by omega) i n hin
      refine ⟨nd1, h1, ?_, ?_, ?_, ?_, ?_⟩
      · rw [List.getElem?_append_left (by rw [Shape.vals_length]; exact hlt)]; exact h2
      · rw [prevAt_append_left _ _ _ _ _ hlt]; exact h3
      · rw [nextAt_append_left _ _ _ _ _ hlt]; exact h4
      · rw [prevAt_append_left _ _ _ _ _ hlt]; exact h5
      · rw [nextAt_append_left _ _ _ _ _ hlt]; exact h6
    · -- the node at the top
      subst heq
      rw [List.getElem?_append_right (le_refl _)] at hin
      simp only [Nat.sub_self, List.getElem?_cons_zero, Option.some.injEq] at hin
      subst hin
      refine ⟨nd, hnd, ?_, ?_, ?_, ?_, ?_⟩
      · rw [List.getElem?_append_right (by rw [Shape.vals_length]), Shape.vals_length]
        simp [hv]
      · intro ht
        cases l with
        | nil => simp only [Rep] at hL; rw [hL]; rfl
        | node a j w b => obtain ⟨e, -⟩ := hL; rw [e] at ht; cases ht
      · intro ht
        cases r with
        | nil =>
          simp only [Rep] at hR; rw [hR]
          simp [nextAt, Shape.ids, Side.thread]
        | node a j w b => obtain ⟨e, -⟩ := hR; rw [e] at ht; cases ht
      · cases l with
        | nil =>
          simp only [Rep] at hL
          simp [Node.previous, hL, prevAt, Shape.ids, Side.thread]
        | node a j w b =>
          have hloop := previousLoop_rep _ (h.length + 1) hL (by omega) (by simp)
          obtain ⟨e, -⟩ := hL
          rw [prevAt_mid _ _ _ _ (Shape.ids_node_ne_nil a j w b), ← Shape.lastId_eq, ← hloop]
          simp [Node.previous, e, Shape.rootId]
      · cases r with
        | nil =>
          simp only [Rep] at hR
          simp [Node.next, hR, nextAt, Shape.ids, Side.thread]
        | node a j w b =>
          have hloop := nextLoop_rep _ (h.length + 1) hR (by omega) (by simp)
          obtain ⟨e, -⟩ := hR
          rw [nextAt_mid _ _ _ _ (Shape.ids_node_ne_nil a j w b), ← Shape.firstId_eq, ← hloop]
          simp [Node.next, e, Shape.rootId]
    · -- a node of the right subtree
      obtain ⟨j, rfl⟩ : ∃ j, i = l.ids.length + 1 + j := ⟨i - l.ids.length - 1, by omega⟩
      rw [List.getElem?_append_right (by omega)] at hin
      have e1 : l.ids.length + 1 + j - l.ids.length = j + 1 := by omega
      rw [e1, List.getElem?_cons_succ] at hin
      obtain ⟨nd1, h1, h2, h3, h4, h5, h6⟩ := ihr hR (by omega) j n hin
      refine ⟨nd1, h1, ?_, ?_, ?_, ?_, ?_⟩
      · rw [List.getElem?_append_right (by rw [Shape.vals_length]; omega), Shape.vals_length,
          e1, List.getElem?_cons_succ]
        exact h2
      · rw [prevAt_append_right]; exact h3
      · rw [nextAt_append_right]; exact h4
      · rw [prevAt_append_right]; exact h5
      · rw [nextAt_append_right]; exact h6

end Neighbours

section Search
variable {α : Type} [LinearOrder α]

/-- Every node of a represented shape heads a represented subtree, ordered when the shape is. -/
theorem Rep.node_at {h : List (Node α)} (s : Shape α) :
    ∀ {side link lo hi}, Rep h side link lo hi s → ∀ n nd, n ∈ s.ids → h[n]? = some nd →
      ∃ l r lo1 hi1, Rep h Side.L nd.m_leftChild lo1 (some n) l ∧
        Rep h Side.R nd.m_rightChild (some n) hi1 r ∧
        l.height < s.height ∧ r.height < s.height ∧
        (s.Bst → (∀ u ∈ l.vals, u < nd.m_value) ∧ (∀ u ∈ r.vals, nd.m_value ≤ u)) := by
  induction s with
  | nil => intro side link lo hi _ n nd hn; simp [Shape.ids] at hn
  | node l p v r ihl ihr =>
    intro side link lo hi hr n nd hn hnd
    obtain ⟨-, nd0, hnd0, hv, hL, hR⟩ := hr
    have hl1 : l.height < (Shape.node l p v r).height := by
      simp only [Shape.height]; have := le_max_left l.height r.height; omega
    have hr1 : r.height < (Shape.node l p v r).height := by
      simp only [Shape.height]; have := le_max_right l.height r.height; omega
    simp only [Shape.ids, List.mem_append, List.mem_cons] at hn
    rcases hn with hn | rfl | hn
    · obtain ⟨a, b, lo1, hi1, h1, h2, h3, h4, h5⟩ := ihl hL n nd hn hnd
      exact ⟨a, b, lo1, hi1, h1, h2, by omega, by omega, fun hb => h5 hb.2.2.1⟩
    · rw [hnd0] at hnd
      cases hnd
      exact ⟨l, r, lo, hi, hL, hR, hl1, hr1, fun hb => ⟨hv ▸ hb.1, hv ▸ hb.2.1⟩⟩
    · obtain ⟨a, b, lo1, hi1, h1, h2, h3, h4, h5⟩ := ihr hR n nd hn hnd
      exact ⟨a, b, lo1, hi1, h1, h2, by omega, by omega, fun hb => h5 hb.2.2.2⟩

/-- The loop of `search` on a represented, ordered shape. -/
theorem searchLoop_rep {h : List (Node α)} (x : α) (s : Shape α) :
    ∀ {side link lo hi} (fuel : Nat), Rep h side link lo hi s → s.Bst → s.height < fuel →
      ∃ res, searchLoop h x fuel link.child = some res ∧ (res ≠ none ↔ x ∈ s.vals) ∧
        ∀ i, res = some i → ∃ nd, h[i]? = some nd ∧ nd.m_value = x := by
  induction s with
  | nil =>
    intro side link lo hi fuel hr _ hf
    obtain ⟨k, rfl⟩ : ∃ k, fuel = k + 1 := ⟨fuel - 1, by omega⟩
    rw [hr.child_eq]
    exact ⟨none, rfl, by simp [Shape.vals], fun i hi => by cases hi⟩
  | node l p v r ihl ihr =>
    intro side link lo hi fuel hr hb hf
    obtain ⟨k, rfl⟩ : ∃ k, fuel = k + 1 := ⟨fuel - 1, by omega⟩
    rw [hr.child_eq]
    obtain ⟨-, nd, hnd, hv, hL, hR⟩ := hr
    obtain ⟨b1, b2, b3, b4⟩ := hb
    simp only [Shape.rootId, searchLoop, hnd, Node.value, hv, Node.leftChild_eq,
      Node.rightChild_eq]
    by_cases hvx : v = x
    · rw [if_pos hvx]
      refine ⟨some p, rfl, by simp [Shape.vals, hvx], fun i hi => ?_⟩
      cases hi
      exact ⟨nd, hnd, hv.trans hvx⟩
    · rw [if_neg hvx]
      by_cases hc : v > x
      · rw [if_pos hc]
        obtain ⟨res, h1, h2, h3⟩ := ihl k hL b3 (Shape.height_lt_left hf)
        refine ⟨res, h1, ?_, h3⟩
        rw [h2]
        simp only [Shape.vals, List.mem_append, List.mem_cons]
        constructor
        · exact fun hm => Or.inl hm
        · rintro (hm | hm | hm)
          · exact hm
          · exact absurd hm.symm hvx
          · exact absurd (b2 x hm) (not_le.mpr hc)
      · rw [if_neg hc]
        obtain ⟨res, h1, h2, h3⟩ := ihr k hR b4 (Shape.height_lt_right hf)
        refine ⟨res, h1, ?_, h3⟩
        rw [h2]
        simp only [Shape.vals, List.mem_append, List.mem_cons]
        constructor
        · exact fun hm => Or.inr (Or.inr hm)
        · rintro (hm | hm | hm)
          · exact absurd (b1 x hm) hc
          · exact absurd hm.symm hvx
          · exact hm

/-- The recursion of `searchRecursive` computes what the loop of `search` computes. -/
theorem searchRecursiveAux_eq (h : List (Node α)) (x : α) (fuel : Nat) (p : Ptr) :
    searchRecursiveAux h x fuel p = searchLoop h x fuel p := by
  induction fuel generalizing p with
  | zero => rfl
  | succ k ih =>
    cases p with
    | none => rfl
    | some n =>
      simp only [searchRecursiveAux, searchLoop]
      cases h[n]? with
      | none => rfl
      | some nd => simp only [Option.some_bind, ih]

end Search

section Sorted
variable {α : Type} [LinearOrder α]

theorem head_le_of_sorted {vs : List α} (hs : vs.Sorted (· ≤ ·)) {a : α}
    (ha : vs.head? = some a) : ∀ u ∈ vs, a ≤ u := by
  cases vs with
  | nil => simp at ha
  | cons b vs =>
    simp only [List.head?_cons, Option.some.injEq] at ha
    subst ha
    intro u hu
    rcases List.mem_cons.mp hu with rfl | hu
    · exact le_refl _
    · exact List.rel_of_sorted_cons hs u hu

theorem le_getLast_of_sorted {vs : List α} (hs : vs.Sorted (· ≤ ·)) {a : α}
    (ha : vs.getLast? = some a) : ∀ u ∈ vs, u ≤ a := by
  have hrev : vs.reverse.head? = some a := by rw [List.head?_reverse]; exact ha
  have hs2 : vs.reverse.Sorted (· ≥ ·) := by
    rw [List.Sorted, List.pairwise_reverse]; exact hs
  intro u hu
  cases hvr : vs.reverse with
  | nil => rw [hvr] at hrev; simp at hrev
  | cons b ws =>
    rw [hvr] at hrev hs2
    simp only [List.head?_cons, Option.some.injEq] at hrev
    subst hrev
    have hu2 : u ∈ b :: ws := by rw [← hvr]; exact List.mem_reverse.mpr hu
    rcases List.mem_cons.mp hu2 with rfl | hu2
    · exact le_refl _
    · exact List.rel_of_sorted_cons hs2 u hu2

end Sorted

section InvFacts
variable {α : Type} [LinearOrder α]

theorem Inv.height_lt {xs : List α} {t : BinaryTree α} (hinv : Inv xs t) :
    (Shape.ofList xs).height < t.heap.length + 1 := by
  have := Shape.height_le_length (Shape.ofList xs)
  rw [Shape.ids_ofList_length, ← hinv.length_eq] at this
  omega

theorem Inv.root_child {xs : List α} {t : BinaryTree α} (hinv : Inv xs t) :
    t.m_root.getPointer = t.m_root.child := by
  rw [hinv.rep.root_pointer, hinv.rep.child_eq]

theorem Inv.inorder_eq {xs : List α} {t : BinaryTree α} (hinv : Inv xs t) {σ : Type}
    (f : σ → α → σ) (s0 : σ) : t.inorder f s0 = some ((Shape.ofList xs).vals.foldl f s0) := by
  rw [BinaryTree.inorder, hinv.root_child]
  exact inorderAux_rep f _ _ s0 hinv.rep hinv.height_lt

theorem Inv.preorder_eq {xs : List α} {t : BinaryTree α} (hinv : Inv xs t) {σ : Type}
    (f : σ → α → σ) (s0 : σ) :
    t.preorder f s0 = some ((Shape.ofList xs).preVals.foldl f s0) := by
  rw [BinaryTree.preorder, BinaryTree.rootNode, hinv.root_child]
  exact preorderAux_rep f _ _ s0 hinv.rep hinv.height_lt

theorem Inv.postorder_eq {xs : List α} {t : BinaryTree α} (hinv : Inv xs t) {σ : Type}
    (f : σ → α → σ) (s0 : σ) :
    t.postorder f s0 = some ((Shape.ofList xs).postVals.foldl f s0) := by
  rw [BinaryTree.postorder, BinaryTree.rootNode, hinv.root_child]
  exact postorderAux_rep f _ _ s0 hinv.rep hinv.height_lt

theorem Inv.inorderValues_eq {xs : List α} {t : BinaryTree α} (hinv : Inv xs t) :
    t.inorderValues = some (Shape.ofList xs).vals := by
  rw [BinaryTree.inorderValues, hinv.inorder_eq, foldl_log, List.nil_append]

theorem Inv.inorderNodes_eq {xs : List α} {t : BinaryTree α} (hinv : Inv xs t) :
    t.inorderNodes = some (Shape.ofList xs).ids := by
  rw [BinaryTree.inorderNodes, hinv.root_child]
  exact inorderNodesAux_rep _ _ hinv.rep hinv.height_lt

theorem Inv.ids_perm {xs : List α} {t : BinaryTree α} (hinv : Inv xs t) :
    (Shape.ofList xs).ids.Perm (List.range t.heap.length) := by
  rw [hinv.length_eq]; exact Shape.ids_ofList_perm xs

/-- The in-order listing of a tree in the state `Inv`: values, threads, `previous`, `next`. -/
theorem Inv.neighbours_root {xs : List α} {t : BinaryTree α} (hinv : Inv xs t) (i n : Nat)
    (hin : (Shape.ofList xs).ids[i]? = some n) :
    ∃ nd, t.heap[n]? = some nd ∧ (Shape.ofList xs).vals[i]? = some nd.m_value ∧
      (nd.m_leftChild.getInt = Tag.THREAD →
        nd.m_leftChild.getPointer = prevAt none (Shape.ofList xs).ids i) ∧
      (nd.m_rightChild.getInt = Tag.THREAD →
        nd.m_rightChild.getPointer = nextAt none (Shape.ofList xs).ids i) ∧
      nd.previous t.heap = some (prevAt none (Shape.ofList xs).ids i) ∧
      nd.next t.heap = some (nextAt none (Shape.ofList xs).ids i) :=
  Rep.neighbours _ hinv.rep (by have := hinv.height_lt; omega) i n hin

/-- In a non-empty tree in the state `Inv`, `minimum` and `maximum` return the first and the
    last value of the in-order listing. -/
theorem Inv.min_max_root {xs : List α} {t : BinaryTree α} (hinv : Inv xs t)
    (hne : xs ≠ []) :
    ∃ mn mx, t.minimum = some (Except.ok mn) ∧ t.maximum = some (Except.ok mx) ∧
      (Shape.ofList xs).vals.head? = some mn ∧ (Shape.ofList xs).vals.getLast? = some mx := by
  have hlen : 0 < (Shape.ofList xs).ids.length := by
    rw [Shape.ids_ofList_length]; exact List.length_pos.mpr hne
  have hs : Shape.ofList xs ≠ Shape.nil := by
    intro e; rw [e] at hlen; simp [Shape.ids] at hlen
  have hroot : t.m_root.getPointer = (Shape.ofList xs).rootId := hinv.rep.root_pointer
  have hrn : t.m_root.getPointer ≠ none := by
    rw [hroot]
    cases hS : Shape.ofList xs with
    | nil => exact absurd hS hs
    | node l i v r => simp [Shape.rootId]
  have hh : (Shape.ofList xs).height ≤ t.heap.length + 1 := by
    have := hinv.height_lt; omega
  -- the first node
  obtain ⟨n0, hn0⟩ : ∃ n0, (Shape.ofList xs).ids[0]? = some n0 :=
    ⟨_, List.getElem?_eq_getElem hlen⟩
  obtain ⟨nd0, hnd0, hv0, -⟩ := hinv.neighbours_root 0 n0 hn0
  -- the last node
  obtain ⟨n1, hn1⟩ : ∃ n1,
      (Shape.ofList xs).ids[(Shape.ofList xs).ids.length - 1]? = some n1 :=
    ⟨_, List.getElem?_eq_getElem (by omega)⟩
  obtain ⟨nd1, hnd1, hv1, -⟩ := hinv.neighbours_root _ n1 hn1
  refine ⟨nd0.m_value, nd1.m_value, ?_, ?_, ?_, ?_⟩
  · rw [BinaryTree.minimum, if_neg hrn, minimumLoop_eq, hroot,
      nextLoop_rep _ _ hinv.rep hh hs, Shape.firstId_eq, List.head?_eq_getElem?, hn0]
    simp [valueAt, hnd0, Node.value]
  · rw [BinaryTree.maximum, if_neg hrn, maximumLoop_eq, hroot,
      previousLoop_rep _ _ hinv.rep hh hs, Shape.lastId_eq, List.getLast?_eq_getElem?, hn1]
    simp [valueAt, hnd1, Node.value]
  · rw [List.head?_eq_getElem?]; exact hv0
  · rw [List.getLast?_eq_getElem?, Shape.vals_length]; exact hv1

theorem Inv.root_none_iff {xs : List α} {t : BinaryTree α} (hinv : Inv xs t) :
    t.m_root.getPointer = none ↔ xs = [] := by
  rw [hinv.rep.root_pointer]
  constructor
  · intro h
    cases hS : Shape.ofList xs with
    | nil =>
      have := Shape.ids_ofList_length xs
      rw [hS] at this
      exact List.length_eq_zero.mp this.symm
    | node l i v r => rw [hS] at h; simp [Shape.rootId] at h
  · rintro rfl; rfl

end InvFacts

section Claims
variable {α : Type} [LinearOrder α]

theorem prevAt_none_iff {L : List Nat} {i : Nat} (h : i < L.length) :
    prevAt none L i = none ↔ i = 0 := by
  unfold prevAt
  split
  · next h0 => simp [h0]
  · next h0 =>
    have : L[i - 1]? = some (L[i - 1]) := List.getElem?_eq_getElem (by omega)
    simp [h0, this]

theorem nextAt_none_eq (L : List Nat) (i : Nat) :
    nextAt none L i = L[i + 1]? := by
  unfold nextAt
  split
  · next h0 => rw [List.getElem?_eq_none (by omega)]
  · rfl

theorem getElem?_succ_none_iff {L : List Nat} {i : Nat} (h : i < L.length) :
    L[i + 1]? = none ↔ i + 1 = L.length := by
  rw [List.getElem?_eq_none_iff]; omega

/-- C1. After any sequence of insertions, every cell is listed once in the in-order listing of
    the nodes, and for the node at position `i`: a left link tagged `THREAD` targets the node at
    position `i - 1`, and is null exactly when `i` is the first position; a right link tagged
    `THREAD` targets the node at position `i + 1`, and is null exactly when `i` is the last
    position.  As `xs` is arbitrary this holds after each single insertion. -/
theorem thread_invariant (xs : List α) :
    ∃ t nodes, build xs = some t ∧ t.inorderNodes = some nodes ∧
      nodes.Perm (List.range t.heap.length) ∧
      ∀ i n, nodes[i]? = some n →
        ∃ nd, t.heap[n]? = some nd ∧
          (nd.m_leftChild.getInt = Tag.THREAD →
            nd.m_leftChild.getPointer = (if i = 0 then none else nodes[i - 1]?) ∧
            (nd.m_leftChild.getPointer = none ↔ i = 0)) ∧
          (nd.m_rightChild.getInt = Tag.THREAD →
            nd.m_rightChild.getPointer = nodes[i + 1]? ∧
            (nd.m_rightChild.getPointer = none ↔ i + 1 = nodes.length)) := by
  obtain ⟨t, ht, hinv⟩ := build_inv xs
  refine ⟨t, _, ht, hinv.inorderNodes_eq, hinv.ids_perm, fun i n hin => ?_⟩
  have hi : i < (Shape.ofList xs).ids.length := (List.getElem?_eq_some_iff.mp hin).1
  obtain ⟨nd, hnd, -, hl, hr, -, -⟩ := hinv.neighbours_root i n hin
  refine ⟨nd, hnd, fun h => ?_, fun h => ?_⟩
  · have e := hl h
    exact ⟨e, by rw [e]; exact prevAt_none_iff hi⟩
  · have e := hr h
    rw [nextAt_none_eq _ _] at e
    exact ⟨e, by rw [e]; exact getElem?_succ_none_iff hi⟩

/-- C2. After any sequence of insertions, for the node at position `i` of the in-order listing
    of the nodes, `previous()` returns the node at position `i - 1` and returns null exactly
    when `i` is the first position, and `next()` returns the node at position `i + 1` and
    returns null exactly when `i` is the last position, whichever branch the method takes. -/
theorem previous_next_correct (xs : List α) :
    ∃ t nodes, build xs = some t ∧ t.inorderNodes = some nodes ∧
      ∀ i n, nodes[i]? = some n →
        ∃ nd prv nxt, t.heap[n]? = some nd ∧
          nd.previous t.heap = some prv ∧ nd.next t.heap = some nxt ∧
          prv = (if i = 0 then none else nodes[i - 1]?) ∧ (prv = none ↔ i = 0) ∧
          nxt = nodes[i + 1]? ∧ (nxt = none ↔ i + 1 = nodes.length) := by
  obtain ⟨t, ht, hinv⟩ := build_inv xs
  refine ⟨t, _, ht, hinv.inorderNodes_eq, fun i n hin => ?_⟩
  have hi : i < (Shape.ofList xs).ids.length := (List.getElem?_eq_some_iff.mp hin).1
  obtain ⟨nd, hnd, -, -, -, hp, hn⟩ := hinv.neighbours_root i n hin
  exact ⟨nd, _, _, hnd, hp, hn, rfl, prevAt_none_iff hi, nextAt_none_eq _ _,
    by rw [nextAt_none_eq _ _]; exact getElem?_succ_none_iff hi⟩

/-- C3. After any sequence of insertions (duplicates allowed), the values that `inorder` hands
    to its visitor are in non-decreasing order; every call hands the same sequence `vs` to
    whatever visitor it is given, so a second call repeats the first. -/
theorem inorder_sorted (xs : List α) :
    ∃ t vs, build xs = some t ∧ t.inorderValues = some vs ∧ vs.Sorted (· ≤ ·) ∧
      (∀ (σ : Type) (f : σ → α → σ) (s0 : σ), t.inorder f s0 = some (vs.foldl f s0)) ∧
      (t.inorder (fun log v => log ++ [v]) []).bind (t.inorder (fun log v => log ++ [v])) =
        some (vs ++ vs) := by
  obtain ⟨t, ht, hinv⟩ := build_inv xs
  refine ⟨t, _, ht, hinv.inorderValues_eq, Shape.sorted_of_bst _ (Shape.bst_ofList xs),
    fun σ f s0 => hinv.inorder_eq f s0, ?_⟩
  rw [hinv.inorder_eq, Option.some_bind, hinv.inorder_eq, foldl_log, foldl_log,
    List.nil_append]

/-- C4. After inserting the values `xs`, each of `inorder`, `preorder` and `postorder` calls its
    visitor on a sequence of values that is a permutation of `xs`: once per inserted value. -/
theorem traversals_perm (xs : List α) :
    ∃ (t : BinaryTree α) (vi vp vq : List α), build xs = some t ∧
      (∀ (σ : Type) (f : σ → α → σ) (s0 : σ), t.inorder f s0 = some (vi.foldl f s0)) ∧
      (∀ (σ : Type) (f : σ → α → σ) (s0 : σ), t.preorder f s0 = some (vp.foldl f s0)) ∧
      (∀ (σ : Type) (f : σ → α → σ) (s0 : σ), t.postorder f s0 = some (vq.foldl f s0)) ∧
      vi.Perm xs ∧ vp.Perm xs ∧ vq.Perm xs := by
  obtain ⟨t, ht, hinv⟩ := build_inv xs
  exact ⟨t, _, _, _, ht, fun σ f s0 => hinv.inorder_eq f s0,
    fun σ f s0 => hinv.preorder_eq f s0, fun σ f s0 => hinv.postorder_eq f s0,
    Shape.vals_ofList_perm xs, (Shape.preVals_perm _).trans (Shape.vals_ofList_perm xs),
    (Shape.postVals_perm _).trans (Shape.vals_ofList_perm xs)⟩

/-- C5. After any sequence of insertions, for every node every value in the subtree below its
    left child is at most the value of the node, and every value in the subtree below its right
    child is at least the value of the node. -/
theorem bst_order (xs : List α) :
    ∃ t, build xs = some t ∧
      ∀ (n : Nat) (nd : Node α), t.heap[n]? = some nd →
        ∃ ls rs, subtreeValues t.heap nd.leftChild = some ls ∧
          subtreeValues t.heap nd.rightChild = some rs ∧
          (∀ u ∈ ls, u ≤ nd.value) ∧ (∀ u ∈ rs, nd.value ≤ u) := by
  obtain ⟨t, ht, hinv⟩ := build_inv xs
  refine ⟨t, ht, fun n nd hnd => ?_⟩
  have hn : n ∈ (Shape.ofList xs).ids := by
    rw [Shape.mem_ids_ofList, ← hinv.length_eq]
    exact (List.getElem?_eq_some_iff.mp hnd).1
  obtain ⟨l, r, lo1, hi1, hL, hR, hl, hr, hb⟩ := Rep.node_at _ hinv.rep n nd hn hnd
  have hlt := hinv.height_lt
  obtain ⟨b1, b2⟩ := hb (Shape.bst_ofList xs)
  refine ⟨l.vals, r.vals, ?_, ?_, fun u hu => le_of_lt (b1 u hu), b2⟩
  · rw [subtreeValues, Node.leftChild_eq, inorderAux_rep _ l _ _ hL (by omega), foldl_log,
      List.nil_append]
  · rw [subtreeValues, Node.rightChild_eq, inorderAux_rep _ r _ _ hR (by omega),
      foldl_log, List.nil_append]

/-- After the insertions `xs`, the loop of `search` returns, with a non-null result exactly when
    `x` is one of `xs`, and then one that addresses a value equal to `x`. -/
theorem Inv.search_eq {xs : List α} {t : BinaryTree α} (hinv : Inv xs t) (x : α) :
    ∃ res, t.search x = some res ∧ (res ≠ none ↔ x ∈ xs) ∧
      ∀ i, res = some i → valueAt t.heap (some i) = some x := by
  obtain ⟨res, h1, h2, h3⟩ :=
    searchLoop_rep x _ (t.heap.length + 1) hinv.rep (Shape.bst_ofList xs) hinv.height_lt
  refine ⟨res, ?_, ?_, fun i hi => ?_⟩
  · rw [BinaryTree.search, hinv.root_child]; exact h1
  · rw [h2, (Shape.vals_ofList_perm xs).mem_iff]
  · obtain ⟨nd, hnd, hv⟩ := h3 i hi
    simp [valueAt, hnd, Node.value, hv]

/-- C6. After inserting the values `xs`, `search(x)` returns a non-null result exactly when `x`
    is one of `xs`, and a non-null result addresses a value equal to `x`. -/
theorem search_correct (xs : List α) (x : α) :
    ∃ t res, build xs = some t ∧ t.search x = some res ∧ (res ≠ none ↔ x ∈ xs) ∧
      ∀ i, res = some i → valueAt t.heap (some i) = some x := by
  obtain ⟨t, ht, hinv⟩ := build_inv xs
  obtain ⟨res, h1, h2, h3⟩ := hinv.search_eq x
  exact ⟨t, res, ht, h1, h2, h3⟩

/-- C7. After any sequence of insertions, `searchRecursive(x)` and `search(x)` both return, and
    return the same result: both null, or both the value of the same node. -/
theorem search_agree (xs : List α) (x : α) :
    ∃ t res, build xs = some t ∧ t.search x = some res ∧ t.searchRecursive x = some res := by
  obtain ⟨t, ht, hinv⟩ := build_inv xs
  obtain ⟨res, hs, -⟩ := hinv.search_eq x
  exact ⟨t, res, ht, hs, by rw [BinaryTree.searchRecursive, searchRecursiveAux_eq]; exact hs⟩

/-- C8. After inserting a non-empty sequence `xs`, `minimum()` returns the least and `maximum()`
    the greatest of the inserted values; they are the first and the last value of the in-order
    listing. -/
theorem minimum_maximum (xs : List α) (hne : xs ≠ []) :
    ∃ t mn mx vs, build xs = some t ∧
      t.minimum = some (Except.ok mn) ∧ t.maximum = some (Except.ok mx) ∧
      mn ∈ xs ∧ (∀ u ∈ xs, mn ≤ u) ∧ mx ∈ xs ∧ (∀ u ∈ xs, u ≤ mx) ∧
      t.inorderValues = some vs ∧ vs.head? = some mn ∧ vs.getLast? = some mx := by
  obtain ⟨t, ht, hinv⟩ := build_inv xs
  obtain ⟨mn, mx, hmin, hmax, hhead, hlast⟩ := hinv.min_max_root hne
  have hperm := Shape.vals_ofList_perm xs
  have hsorted := Shape.sorted_of_bst _ (Shape.bst_ofList xs)
  refine ⟨t, mn, mx, _, ht, hmin, hmax, ?_, ?_, ?_, ?_, hinv.inorderValues_eq, hhead, hlast⟩
  · exact hperm.mem_iff.mp (List.mem_of_mem_head? hhead)
  · exact fun u hu => head_le_of_sorted hsorted hhead u (hperm.mem_iff.mpr hu)
  · exact hperm.mem_iff.mp (List.mem_of_mem_getLast? hlast)
  · exact fun u hu => le_getLast_of_sorted hsorted hlast u (hperm.mem_iff.mpr hu)

/-- Witness of C8 on the insertions 5, 3, 8. -/
theorem minimum_maximum_witness :
    ([5, 3, 8] : List Nat) ≠ [] ∧
      ∃ t mn mx vs, build ([5, 3, 8] : List Nat) = some t ∧
        t.minimum = some (Except.ok mn) ∧ t.maximum = some (Except.ok mx) ∧
        mn ∈ [5, 3, 8] ∧ (∀ u ∈ [5, 3, 8], mn ≤ u) ∧ mx ∈ [5, 3, 8] ∧
        (∀ u ∈ [5, 3, 8], u ≤ mx) ∧
        t.inorderValues = some vs ∧ vs.head? = some mn ∧ vs.getLast? = some mx :=
  ⟨by decide, minimum_maximum [5, 3, 8] (by decide)⟩

end Claims

section Claims2
variable {α : Type} [LinearOrder α]

theorem Inv.minimum_error_iff {xs : List α} {t : BinaryTree α} (hinv : Inv xs t) :
    (t.minimum = some (Except.error Exception.out_of_range) ↔ xs = []) ∧
      (t.maximum = some (Except.error Exception.out_of_range) ↔ xs = []) := by
  by_cases hne : xs = []
  · have hr := hinv.root_none_iff.mpr hne
    simp [BinaryTree.minimum, BinaryTree.maximum, hr, hne]
  · obtain ⟨mn, mx, hmin, hmax, -⟩ := hinv.min_max_root hne
    simp [hmin, hmax, hne]

/-- C9, as the code has it.  `minimum()` and `maximum()` fail with `out_of_range` exactly when
    nothing has been inserted, and return a value otherwise, in particular whenever `size()` is
    positive; as long as fewer than `2 ^ 32` values have been inserted, nothing has been inserted
    exactly when `size() == 0`, so that there they fail exactly when `size() == 0`. -/
theorem minimum_maximum_fail_iff (xs : List α) :
    ∃ t, build xs = some t ∧
      (t.minimum = some (Except.error Exception.out_of_range) ↔ xs = []) ∧
      (t.maximum = some (Except.error Exception.out_of_range) ↔ xs = []) ∧
      (0 < t.size → ∃ mn mx, t.minimum = some (Except.ok mn) ∧ t.maximum = some (Except.ok mx)) ∧
      (xs.length < 2 ^ 32 →
        (t.minimum = some (Except.error Exception.out_of_range) ↔ t.size = 0) ∧
        (t.maximum = some (Except.error Exception.out_of_range) ↔ t.size = 0)) := by
  obtain ⟨t, ht, hinv⟩ := build_inv xs
  obtain ⟨hmin, hmax⟩ := hinv.minimum_error_iff
  have hsize : t.size = xs.length % 2 ^ 32 := hinv.size_eq
  refine ⟨t, ht, hmin, hmax, fun hpos => ?_, fun hlt => ?_⟩
  · have hne : xs ≠ [] := by
      rintro rfl
      rw [hsize] at hpos
      simp at hpos
    obtain ⟨mn, mx, h1, h2, -⟩ := hinv.min_max_root hne
    exact ⟨mn, mx, h1, h2⟩
  · have hz : t.size = 0 ↔ xs = [] := by
      rw [hsize, Nat.mod_eq_of_lt hlt]; exact List.length_eq_zero
    rw [hmin, hmax, hz]
    exact ⟨Iff.rfl, Iff.rfl⟩

/-- C9 fails as stated: after `2 ^ 32` insertions of the value `0` the counter `m_size` has
    wrapped around, so that `size() == 0`, while `minimum()` and `maximum()` return `0`. -/
theorem minimum_maximum_fail_iff_counterexample :
    ∃ t : BinaryTree Nat, build (List.replicate (2 ^ 32) 0) = some t ∧ t.size = 0 ∧
      t.minimum = some (Except.ok 0) ∧ t.maximum = some (Except.ok 0) := by
  obtain ⟨t, ht, hinv⟩ := build_inv (List.replicate (2 ^ 32) (0 : Nat))
  have hlen : (List.replicate (2 ^ 32) (0 : Nat)).length = 2 ^ 32 := List.length_replicate _ _
  have hne : List.replicate (2 ^ 32) (0 : Nat) ≠ [] := by
    intro e
    rw [e] at hlen
    simp at hlen
  obtain ⟨mn, mx, hmin, hmax, hhead, hlast⟩ := hinv.min_max_root hne
  have hperm := Shape.vals_ofList_perm (List.replicate (2 ^ 32) (0 : Nat))
  have hmn : mn = 0 :=
    List.eq_of_mem_replicate (hperm.mem_iff.mp (List.mem_of_mem_head? hhead))
  have hmx : mx = 0 :=
    List.eq_of_mem_replicate (hperm.mem_iff.mp (List.mem_of_mem_getLast? hlast))
  subst hmn hmx
  refine ⟨t, ht, ?_, hmin, hmax⟩
  have := hinv.size_eq
  rw [hlen, Nat.mod_self] at this
  exact this

/-- C10. After inserting `k` values, with `k` below `2 ^ 32`, `size()` is `k`, which is the
    number of nodes reached from the root through child links, each reached once; and the last
    of the insertions has increased `size()` by exactly one. -/
theorem size_accounting (xs : List α) (hlt : xs.length < 2 ^ 32) :
    ∃ t nodes, build xs = some t ∧ t.size = xs.length ∧
      t.inorderNodes = some nodes ∧ nodes.Nodup ∧ nodes.length = xs.length ∧
      ∀ ys x, xs = ys ++ [x] →
        ∃ t0, build ys = some t0 ∧ t0.insert x = some t ∧ t.size = t0.size + 1 := by
  obtain ⟨t, ht, hinv⟩ := build_inv xs
  have hsize : t.size = xs.length := by
    have := hinv.size_eq
    rw [Nat.mod_eq_of_lt hlt] at this
    exact this
  refine ⟨t, _, ht, hsize, hinv.inorderNodes_eq, Shape.ids_ofList_nodup xs,
    Shape.ids_ofList_length xs, ?_⟩
  rintro ys x rfl
  obtain ⟨t0, ht0, hinv0⟩ := build_inv ys
  have hins : t0.insert x = some t := by
    rw [build_append_singleton, ht0] at ht
    exact ht
  have h0 : t0.size = ys.length := by
    have := hinv0.size_eq
    rw [List.length_append, List.length_singleton] at hlt
    rw [Nat.mod_eq_of_lt (by omega)] at this
    exact this
  refine ⟨t0, ht0, hins, ?_⟩
  rw [hsize, h0, List.length_append, List.length_singleton]

/-- Witness of C10 on the insertions 5, 3, 8. -/
theorem size_accounting_witness :
    ([5, 3, 8] : List Nat).length < 2 ^ 32 ∧
      ∃ t nodes, build ([5, 3, 8] : List Nat) = some t ∧ t.size = ([5, 3, 8] : List Nat).length ∧
        t.inorderNodes = some nodes ∧ nodes.Nodup ∧
        nodes.length = ([5, 3, 8] : List Nat).length ∧
        ∀ ys x, ([5, 3, 8] : List Nat) = ys ++ [x] →
          ∃ t0, build ys = some t0 ∧ t0.insert x = some t ∧ t.size = t0.size + 1 :=
  ⟨by decide, size_accounting [5, 3, 8] (by decide)⟩

end Claims2

section Concrete

/-- C12. The freshly constructed tree has `size() == 0` and `depth() == 0`; `search(x)` and
    `searchRecursive(x)` return null for every `x`; `minimum()` and `maximum()` fail with
    `out_of_range`; and `inorder` calls its visitor on no value. -/
theorem empty_tree_behaviour {α : Type} [LinearOrder α] :
    (BinaryTree.empty : BinaryTree α).size = 0 ∧
      (BinaryTree.empty : BinaryTree α).depth = 0 ∧
      (∀ x : α, (BinaryTree.empty : BinaryTree α).search x = some none) ∧
      (∀ x : α, (BinaryTree.empty : BinaryTree α).searchRecursive x = some none) ∧
      (BinaryTree.empty : BinaryTree α).minimum = some (Except.error Exception.out_of_range) ∧
      (BinaryTree.empty : BinaryTree α).maximum = some (Except.error Exception.out_of_range) ∧
      (BinaryTree.empty : BinaryTree α).inorderValues = some [] ∧
      (∀ (σ : Type) (f : σ → α → σ) (s0 : σ),
        (BinaryTree.empty : BinaryTree α).inorder f s0 = some s0) ∧
      build ([] : List α) = some BinaryTree.empty :=
  ⟨rfl, rfl, fun _ => rfl, fun _ => rfl, rfl, rfl, rfl, fun _ _ _ => rfl, rfl⟩

/-- C13. Inserting 5, 3, 8, 1, 4, 7, 9 in that order gives the in-order traversal
    1, 3, 4, 5, 7, 8, 9, `size() == 7`, `minimum() == 1` and `maximum() == 9`; `search(4)` finds
    the node holding 4, whose `previous()` is the node holding 3 and whose `next()` is the node
    holding 5. -/
theorem scenario_5_3_8_1_4_7_9 :
    build [5, 3, 8, 1, 4, 7, 9] = some scenarioTree ∧
      scenarioTree.inorderValues = some [1, 3, 4, 5, 7, 8, 9] ∧ scenarioTree.size = 7 ∧
      scenarioTree.minimum = some (Except.ok 1) ∧ scenarioTree.maximum = some (Except.ok 9) ∧
      ∃ nd4, scenarioTree.search 4 = some (some 4) ∧ scenarioTree.heap[4]? = some nd4 ∧
        nd4.value = 4 ∧
        nd4.previous scenarioTree.heap = some (some 1) ∧
        valueAt scenarioTree.heap (some 1) = some 3 ∧
        nd4.next scenarioTree.heap = some (some 0) ∧
        valueAt scenarioTree.heap (some 0) = some 5 :=
  ⟨by decide, by decide, by decide, rfl, rfl, _, by decide, rfl, by decide,
    by decide, by decide, by decide, by decide⟩

end Concrete

section Depth
variable {α : Type}

theorem childDepthAux_rep {h : List (Node α)} (s : Shape α) :
    ∀ {side link lo hi} (fuel : Nat), Rep h side link lo hi s → s.height < fuel →
      childDepthAux h fuel link.child = some s.height := by
  induction s with
  | nil =>
    intro side link lo hi fuel hr hf
    obtain ⟨k, rfl⟩ : ∃ k, fuel = k + 1 := ⟨fuel - 1, by omega⟩
    rw [hr.child_eq]; rfl
  | node l i v r ihl ihr =>
    intro side link lo hi fuel hr hf
    obtain ⟨k, rfl⟩ : ∃ k, fuel = k + 1 := ⟨fuel - 1, by omega⟩
    rw [hr.child_eq]
    obtain ⟨-, nd, hnd, hv, hL, hR⟩ := hr
    simp only [Shape.rootId, childDepthAux, hnd, Option.some_bind, Node.leftChild_eq,
      Node.rightChild_eq, ihl k hL (Shape.height_lt_left hf),
      ihr k hR (Shape.height_lt_right hf), Shape.height]

variable [LinearOrder α]

theorem Shape.pathLen_le_height (x : α) (s : Shape α) : s.pathLen x ≤ s.height := by
  induction s with
  | nil => simp [Shape.pathLen, Shape.height]
  | node l i v r ihl ihr =>
    simp only [Shape.pathLen, Shape.height]
    have h1 := le_max_left l.height r.height
    have h2 := le_max_right l.height r.height
    split <;> omega

theorem Shape.height_ins (x : α) (new : Nat) (s : Shape α) :
    (s.ins x new).height = max s.height (s.pathLen x + 1) := by
  induction s with
  | nil => simp [Shape.ins, Shape.height, Shape.pathLen]
  | node l i v r ihl ihr =>
    have h1 := Shape.pathLen_le_height x l
    have h2 := Shape.pathLen_le_height x r
    simp only [Shape.ins, Shape.pathLen]
    split
    · simp only [Shape.height, ihl]
      omega
    · simp only [Shape.height, ihr]
      omega

theorem Shape.stateOfList_append_singleton (xs : List α) (x : α) :
    Shape.stateOfList (xs ++ [x]) =
      ((Shape.stateOfList xs).1.ins x (Shape.stateOfList xs).1.ids.length,
        max (Shape.stateOfList xs).2 ((1 + (Shape.stateOfList xs).1.pathLen x) % 2 ^ 32)) := by
  simp [Shape.stateOfList, List.foldl_append]

theorem Shape.stateOfList_fst (xs : List α) : (Shape.stateOfList xs).1 = Shape.ofList xs := by
  induction xs using List.reverseRecOn with
  | nil => rfl
  | append_singleton xs x ih =>
    rw [Shape.stateOfList_append_singleton, Shape.ofList_append_singleton, ih]

theorem Shape.depthOfList_append_singleton (xs : List α) (x : α) :
    Shape.depthOfList (xs ++ [x]) =
      max (Shape.depthOfList xs) ((1 + (Shape.ofList xs).pathLen x) % 2 ^ 32) := by
  rw [Shape.depthOfList, Shape.stateOfList_append_singleton, Shape.stateOfList_fst]
  rfl

theorem Shape.height_ofList_le (xs : List α) : (Shape.ofList xs).height ≤ xs.length := by
  have := Shape.height_le_length (Shape.ofList xs)
  rwa [Shape.ids_ofList_length] at this

/-- Below `2 ^ 32` insertions no level wraps around, and `m_depth` is the height of the shape. -/
theorem Shape.depthOfList_eq_height (xs : List α) (hlt : xs.length < 2 ^ 32) :
    Shape.depthOfList xs = (Shape.ofList xs).height := by
  induction xs using List.reverseRecOn with
  | nil => rfl
  | append_singleton xs x ih =>
    rw [List.length_append, List.length_singleton] at hlt
    rw [Shape.depthOfList_append_singleton, Shape.ofList_append_singleton, Shape.height_ins,
      ih (by omega)]
    have h1 := Shape.pathLen_le_height x (Shape.ofList xs)
    have h2 := Shape.height_ofList_le xs
    rw [Nat.mod_eq_of_lt (by omega), Nat.add_comm 1]

/-- Every sequence of insertions returns, in the state `Inv` and with `m_depth` as computed by
    `Shape.depthOfList`. -/
theorem build_depth (xs : List α) :
    ∃ t, build xs = some t ∧ Inv xs t ∧ t.m_depth = Shape.depthOfList xs := by
  induction xs using List.reverseRecOn with
  | nil =>
    obtain ⟨t, ht, hinv⟩ := build_inv ([] : List α)
    refine ⟨t, ht, hinv, ?_⟩
    cases ht
    rfl
  | append_singleton xs x ih =>
    obtain ⟨t, ht, hinv, hd⟩ := ih
    obtain ⟨t1, fs, hins, post⟩ := insert_post hinv x
    obtain ⟨t2, hins2, hinv2⟩ := insert_inv hinv x
    rw [hins] at hins2
    cases hins2
    refine ⟨t1, by rw [build_append_singleton, ht]; exact hins, hinv2, ?_⟩
    rw [post.depth_eq, Shape.depthOfList_append_singleton, ← hd]

/-- One more insertion never lowers `m_depth`. -/
theorem Inv.depth_le_insert {xs : List α} {t t1 : BinaryTree α} (hinv : Inv xs t) {x : α}
    (hins : t.insert x = some t1) : t.m_depth ≤ t1.m_depth := by
  obtain ⟨t2, fs, hins2, post⟩ := insert_post hinv x
  rw [hins] at hins2
  cases hins2
  rw [post.depth_eq]
  exact le_max_left _ _

theorem Inv.childDepth_eq {xs : List α} {t : BinaryTree α} (hinv : Inv xs t) :
    t.childDepth = some (Shape.ofList xs).height :=
  childDepthAux_rep _ _ hinv.rep hinv.height_lt

end Depth

section Spine
variable {α : Type}

theorem Shape.height_of_rightSpine {s : Shape α} (h : s.RightSpine) :
    s.height = s.ids.length := by
  induction s with
  | nil => rfl
  | node l i v r ihl ihr =>
    obtain ⟨rfl, hr⟩ := h
    simp [Shape.height, Shape.ids, ihr hr]

theorem Shape.height_of_leftSpine {s : Shape α} (h : s.LeftSpine) :
    s.height = s.ids.length := by
  induction s with
  | nil => rfl
  | node l i v r ihl ihr =>
    obtain ⟨rfl, hl⟩ := h
    simp [Shape.height, Shape.ids, ihl hl]

variable [LinearOrder α]

theorem Shape.rightSpine_ins {s : Shape α} (h : s.RightSpine) (x : α) (new : Nat)
    (hx : ∀ v ∈ s.vals, v ≤ x) :
    (s.ins x new).RightSpine ∧ s.pathLen x = s.ids.length := by
  induction s with
  | nil => simp [Shape.ins, Shape.RightSpine, Shape.pathLen, Shape.ids]
  | node l i v r ihl ihr =>
    obtain ⟨rfl, hr⟩ := h
    have hv : ¬ v > x := not_lt.mpr (hx v (by simp [Shape.vals]))
    obtain ⟨h1, h2⟩ := ihr hr (fun u hu => hx u (by simp [Shape.vals, hu]))
    simp only [Shape.ins, Shape.pathLen, if_neg hv, Shape.RightSpine, Shape.ids, h2]
    exact ⟨⟨trivial, h1⟩, by simp⟩

theorem Shape.leftSpine_ins {s : Shape α} (h : s.LeftSpine) (x : α) (new : Nat)
    (hx : ∀ v ∈ s.vals, x < v) :
    (s.ins x new).LeftSpine ∧ s.pathLen x = s.ids.length := by
  induction s with
  | nil => simp [Shape.ins, Shape.LeftSpine, Shape.pathLen, Shape.ids]
  | node l i v r ihl ihr =>
    obtain ⟨rfl, hl⟩ := h
    have hv : v > x := hx v (by simp [Shape.vals])
    obtain ⟨h1, h2⟩ := ihl hl (fun u hu => hx u (by simp [Shape.vals, hu]))
    simp only [Shape.ins, Shape.pathLen, if_pos hv, Shape.LeftSpine, Shape.ids, h2]
    exact ⟨⟨trivial, h1⟩, by simp⟩

/-- Non-decreasing input leaves a shape without left children. -/
theorem Shape.rightSpine_ofList {xs : List α} (hs : xs.Sorted (· ≤ ·)) :
    (Shape.ofList xs).RightSpine := by
  induction xs using List.reverseRecOn with
  | nil => trivial
  | append_singleton xs x ih =>
    rw [List.Sorted, List.pairwise_append] at hs
    obtain ⟨h1, -, h3⟩ := hs
    rw [Shape.ofList_append_singleton]
    refine (Shape.rightSpine_ins (ih h1) x _ fun v hv => ?_).1
    exact h3 v ((Shape.vals_ofList_perm xs).mem_iff.mp hv) x (List.mem_singleton_self x)

/-- Strictly decreasing input leaves a shape without right children. -/
theorem Shape.leftSpine_ofList {xs : List α} (hs : xs.Sorted (· > ·)) :
    (Shape.ofList xs).LeftSpine := by
  induction xs using List.reverseRecOn with
  | nil => trivial
  | append_singleton xs x ih =>
    rw [List.Sorted, List.pairwise_append] at hs
    obtain ⟨h1, -, h3⟩ := hs
    rw [Shape.ofList_append_singleton]
    refine (Shape.leftSpine_ins (ih h1) x _ fun v hv => ?_).1
    exact h3 v ((Shape.vals_ofList_perm xs).mem_iff.mp hv) x (List.mem_singleton_self x)

theorem Shape.height_ofList_sorted {xs : List α}
    (hs : xs.Sorted (· ≤ ·) ∨ xs.Sorted (· > ·)) : (Shape.ofList xs).height = xs.length := by
  rcases hs with hs | hs
  · rw [Shape.height_of_rightSpine (Shape.rightSpine_ofList hs), Shape.ids_ofList_length]
  · rw [Shape.height_of_leftSpine (Shape.leftSpine_ofList hs), Shape.ids_ofList_length]

theorem sorted_replicate (n : Nat) (a : α) : (List.replicate n a).Sorted (· ≤ ·) := by
  rw [List.Sorted, List.pairwise_replicate]
  exact Or.inr (le_refl a)

/-- The value of `m_depth` after `2 ^ 32` insertions of one value: the level of the last node
    has wrapped around to `0`. -/
theorem Shape.depthOfList_replicate (a : α) (n : Nat) (hn : n = 2 ^ 32) :
    Shape.depthOfList (List.replicate n a) = n - 1 := by
  obtain ⟨m, rfl⟩ : ∃ m, n = m + 1 := ⟨n - 1, by omega⟩
  have hlen : (List.replicate m a).length = m := List.length_replicate _ _
  have hs := sorted_replicate m a
  have hpath : (Shape.ofList (List.replicate m a)).pathLen a = m := by
    have := (Shape.rightSpine_ins (Shape.rightSpine_ofList hs) a 0 fun v hv =>
      le_of_eq (List.eq_of_mem_replicate ((Shape.vals_ofList_perm _).mem_iff.mp hv))).2
    rw [this, Shape.ids_ofList_length, hlen]
  have hd : Shape.depthOfList (List.replicate m a) = m := by
    rw [Shape.depthOfList_eq_height _ (by rw [hlen]; omega),
      Shape.height_ofList_sorted (Or.inl hs), hlen]
  rw [List.replicate_succ', Shape.depthOfList_append_singleton, hd, hpath]
  have : (1 + m) % 2 ^ 32 = 0 := by omega
  rw [this]
  simp

end Spine

section DepthClaims
variable {α : Type} [LinearOrder α]

/-- C11, as the code has it.  After fewer than `2 ^ 32` insertions `depth()` is the greatest
    number of child links traversed from the root link to reach a node (`0` for the empty
    tree); and after any number of insertions one more insertion does not lower `depth()`. -/
theorem depth_accounting (xs : List α) :
    ∃ t, build xs = some t ∧
      (xs.length < 2 ^ 32 → t.childDepth = some t.depth) ∧
      (xs = [] → t.childDepth = some 0 ∧ t.depth = 0) ∧
      ∀ x, ∃ t1, t.insert x = some t1 ∧ t.depth ≤ t1.depth := by
  obtain ⟨t, ht, hinv, hd⟩ := build_depth xs
  refine ⟨t, ht, fun hlt => ?_, ?_, fun x => ?_⟩
  · rw [hinv.childDepth_eq, BinaryTree.depth, hd, Shape.depthOfList_eq_height xs hlt]
  · rintro rfl
    rw [hinv.childDepth_eq, BinaryTree.depth, hd]
    exact ⟨rfl, rfl⟩
  · obtain ⟨t1, h1, -⟩ := insert_inv hinv x
    exact ⟨t1, h1, hinv.depth_le_insert h1⟩

/-- Witness of C11 on the insertions 5, 3, 8. -/
theorem depth_accounting_witness :
    ∃ t : BinaryTree Nat, build [5, 3, 8] = some t ∧ t.childDepth = some t.depth := by
  obtain ⟨t, h1, h2, -⟩ := depth_accounting ([5, 3, 8] : List Nat)
  exact ⟨t, h1, h2 (by decide)⟩

/-- C11 fails as stated: after `2 ^ 32` insertions of the value `0` the last node is reached
    through `2 ^ 32` child links, while its level has wrapped around and `depth()` is
    `2 ^ 32 - 1`. -/
theorem depth_accounting_counterexample :
    ∃ t : BinaryTree Nat, build (List.replicate (2 ^ 32) 0) = some t ∧
      t.childDepth = some (2 ^ 32) ∧ t.depth = 2 ^ 32 - 1 := by
  obtain ⟨t, ht, hinv, hd⟩ := build_depth (List.replicate (2 ^ 32) (0 : Nat))
  refine ⟨t, ht, ?_, ?_⟩
  · rw [hinv.childDepth_eq, Shape.height_ofList_sorted (Or.inl (sorted_replicate _ _)),
      List.length_replicate]
  · rw [BinaryTree.depth, hd, Shape.depthOfList_replicate 0 (2 ^ 32) rfl]

/-- C14, as the code has it.  Inserting fewer than `2 ^ 32` values that arrive non-decreasing,
    or strictly decreasing, gives `depth() == size() == n`. -/
theorem sorted_input_degenerate (xs : List α)
    (hs : xs.Sorted (· ≤ ·) ∨ xs.Sorted (· > ·)) (hlt : xs.length < 2 ^ 32) :
    ∃ t, build xs = some t ∧ t.depth = xs.length ∧ t.size = xs.length := by
  obtain ⟨t, ht, hinv, hd⟩ := build_depth xs
  refine ⟨t, ht, ?_, ?_⟩
  · rw [BinaryTree.depth, hd, Shape.depthOfList_eq_height xs hlt, Shape.height_ofList_sorted hs]
  · rw [BinaryTree.size, hinv.size_eq, Nat.mod_eq_of_lt hlt]

/-- Witness of C14 on the insertions 1, 2, 2, 3. -/
theorem sorted_input_degenerate_witness :
    (([1, 2, 2, 3] : List Nat).Sorted (· ≤ ·) ∨ ([1, 2, 2, 3] : List Nat).Sorted (· > ·)) ∧
      ([1, 2, 2, 3] : List Nat).length < 2 ^ 32 ∧
      ∃ t, build ([1, 2, 2, 3] : List Nat) = some t ∧
        t.depth = ([1, 2, 2, 3] : List Nat).length ∧
        t.size = ([1, 2, 2, 3] : List Nat).length :=
  ⟨Or.inl (by decide), by decide,
    sorted_input_degenerate [1, 2, 2, 3] (Or.inl (by decide)) (by decide)⟩

/-- C14 fails as stated: `2 ^ 32` insertions of the value `0` are non-decreasing input of
    length `n = 2 ^ 32`, after which `size()` is `0` and `depth()` is `2 ^ 32 - 1`. -/
theorem sorted_input_degenerate_counterexample :
    (List.replicate (2 ^ 32) (0 : Nat)).Sorted (· ≤ ·) ∧
      (List.replicate (2 ^ 32) (0 : Nat)).length = 2 ^ 32 ∧
      ∃ t, build (List.replicate (2 ^ 32) (0 : Nat)) = some t ∧
        t.size = 0 ∧ t.depth = 2 ^ 32 - 1 := by
  obtain ⟨t, ht, hinv, hd⟩ := build_depth (List.replicate (2 ^ 32) (0 : Nat))
  refine ⟨sorted_replicate _ _, List.length_replicate _ _, t, ht, ?_, ?_⟩
  · rw [BinaryTree.size, hinv.size_eq, List.length_replicate, Nat.mod_self]
  · rw [BinaryTree.depth, hd, Shape.depthOfList_replicate 0 (2 ^ 32) rfl]

end DepthClaims

section Dup
variable {α : Type}

theorem Shape.has_mem {s : Shape α} {m : Nat} {v : α} (h : s.has m v) :
    m ∈ s.ids ∧ v ∈ s.vals := by
  induction s with
  | nil => exact absurd h (by simp [Shape.has])
  | node l i w r ihl ihr =>
    simp only [Shape.ids, Shape.vals, List.mem_append, List.mem_cons]
    rcases h with ⟨rfl, rfl⟩ | h | h
    · exact ⟨Or.inr (Or.inl rfl), Or.inr (Or.inl rfl)⟩
    · exact ⟨Or.inl (ihl h).1, Or.inl (ihl h).2⟩
    · exact ⟨Or.inr (Or.inr (ihr h).1), Or.inr (Or.inr (ihr h).2)⟩

/-- Under `Rep`, a cell of the shape holds the value the shape records for it. -/
theorem Rep.has_of_mem {h : List (Node α)} (s : Shape α) :
    ∀ {side link lo hi}, Rep h side link lo hi s → ∀ m nd, m ∈ s.ids → h[m]? = some nd →
      s.has m nd.m_value := by
  induction s with
  | nil => intro side link lo hi _ m nd hm; simp [Shape.ids] at hm
  | node l i v r ihl ihr =>
    intro side link lo hi hr m nd hm hnd
    obtain ⟨-, nd0, hnd0, hv, hL, hR⟩ := hr
    simp only [Shape.ids, List.mem_append, List.mem_cons] at hm
    rcases hm with hm | rfl | hm
    · exact Or.inr (Or.inl (ihl hL m nd hm hnd))
    · rw [hnd0] at hnd
      cases hnd
      exact Or.inl ⟨rfl, hv.symm⟩
    · exact Or.inr (Or.inr (ihr hR m nd hm hnd))

/-- Under `Rep`, the right subtree of a cell is represented below its right link. -/
theorem Rep.inRight_sub {h : List (Node α)} (s : Shape α) :
    ∀ {side link lo hi}, Rep h side link lo hi s → ∀ m n nd, s.inRight m n → h[m]? = some nd →
      ∃ r lo1 hi1, Rep h Side.R nd.m_rightChild lo1 hi1 r ∧ n ∈ r.ids ∧
        r.height < s.height := by
  induction s with
  | nil => intro side link lo hi _ m n nd hin; exact absurd hin (by simp [Shape.inRight])
  | node l i v r ihl ihr =>
    intro side link lo hi hr m n nd hin hnd
    obtain ⟨-, nd0, hnd0, hv, hL, hR⟩ := hr
    have hl1 : l.height < (Shape.node l i v r).height := by
      simp only [Shape.height]; have := le_max_left l.height r.height; omega
    have hr1 : r.height < (Shape.node l i v r).height := by
      simp only [Shape.height]; have := le_max_right l.height r.height; omega
    rcases hin with ⟨rfl, hn⟩ | hin | hin
    · rw [hnd0] at hnd
      cases hnd
      exact ⟨r, _, _, hR, hn, hr1⟩
    · obtain ⟨a, lo1, hi1, h1, h2, h3⟩ := ihl hL m n nd hin hnd
      exact ⟨a, lo1, hi1, h1, h2, by omega⟩
    · obtain ⟨a, lo1, hi1, h1, h2, h3⟩ := ihr hR m n nd hin hnd
      exact ⟨a, lo1, hi1, h1, h2, by omega⟩

variable [LinearOrder α]

theorem Shape.has_ins {s : Shape α} {m : Nat} {v : α} (x : α) (new : Nat) (h : s.has m v) :
    (s.ins x new).has m v := by
  induction s with
  | nil => exact absurd h (by simp [Shape.has])
  | node l i w r ihl ihr =>
    simp only [Shape.ins]
    split
    · rcases h with h | h | h
      · exact Or.inl h
      · exact Or.inr (Or.inl (ihl h))
      · exact Or.inr (Or.inr h)
    · rcases h with h | h | h
      · exact Or.inl h
      · exact Or.inr (Or.inl h)
      · exact Or.inr (Or.inr (ihr h))

theorem Shape.has_ins_new (s : Shape α) (x : α) (new : Nat) : (s.ins x new).has new x := by
  induction s with
  | nil => exact Or.inl ⟨rfl, rfl⟩
  | node l i w r ihl ihr =>
    simp only [Shape.ins]
    split
    · exact Or.inr (Or.inl ihl)
    · exact Or.inr (Or.inr ihr)

theorem Shape.has_ins_inv {s : Shape α} {m : Nat} {v x : α} {new : Nat}
    (h : (s.ins x new).has m v) : s.has m v ∨ (m = new ∧ v = x) := by
  induction s with
  | nil =>
    rcases h with ⟨rfl, rfl⟩ | h | h
    · exact Or.inr ⟨rfl, rfl⟩
    · exact absurd h (by simp [Shape.has])
    · exact absurd h (by simp [Shape.has])
  | node l i w r ihl ihr =>
    simp only [Shape.ins] at h
    split at h
    · rcases h with h | h | h
      · exact Or.inl (Or.inl h)
      · exact (ihl h).imp (fun h => Or.inr (Or.inl h)) id
      · exact Or.inl (Or.inr (Or.inr h))
    · rcases h with h | h | h
      · exact Or.inl (Or.inl h)
      · exact Or.inl (Or.inr (Or.inl h))
      · exact (ihr h).imp (fun h => Or.inr (Or.inr h)) id

theorem Shape.mem_ids_ins {s : Shape α} {n : Nat} (x : α) (new : Nat) (h : n ∈ s.ids) :
    n ∈ (s.ins x new).ids :=
  (Shape.ids_ins_perm x new s).mem_iff.mpr (List.mem_cons_of_mem _ h)

theorem Shape.inRight_ins {s : Shape α} {m n : Nat} (x : α) (new : Nat) (h : s.inRight m n) :
    (s.ins x new).inRight m n := by
  induction s with
  | nil => exact absurd h (by simp [Shape.inRight])
  | node l i w r ihl ihr =>
    simp only [Shape.ins]
    split
    · rcases h with h | h | h
      · exact Or.inl h
      · exact Or.inr (Or.inl (ihl h))
      · exact Or.inr (Or.inr h)
    · rcases h with ⟨h1, h2⟩ | h | h
      · exact Or.inl ⟨h1, Shape.mem_ids_ins x new h2⟩
      · exact Or.inr (Or.inl h)
      · exact Or.inr (Or.inr (ihr h))

/-- A value equal to the value of an existing cell is inserted below the right child of that
    cell. -/
theorem Shape.inRight_ins_new {s : Shape α} {m : Nat} {x : α} (new : Nat) (hb : s.Bst)
    (h : s.has m x) : (s.ins x new).inRight m new := by
  induction s with
  | nil => exact absurd h (by simp [Shape.has])
  | node l i w r ihl ihr =>
    obtain ⟨b1, b2, b3, b4⟩ := hb
    have hnew : ∀ a : Shape α, new ∈ (a.ins x new).ids := fun a =>
      (Shape.ids_ins_perm x new a).mem_iff.mpr (List.mem_cons_self _ _)
    simp only [Shape.ins]
    rcases h with ⟨rfl, rfl⟩ | h | h
    · rw [if_neg (lt_irrefl _)]
      exact Or.inl ⟨rfl, hnew r⟩
    · rw [if_pos (b1 x (Shape.has_mem h).2)]
      exact Or.inr (Or.inl (ihl b3 h))
    · rw [if_neg (not_lt.mpr (b2 x (Shape.has_mem h).2))]
      exact Or.inr (Or.inr (ihr b4 h))

/-- The `m`-th cell of the shape of a list holds the `m`-th element of the list. -/
theorem Shape.has_ofList (xs : List α) (m : Nat) (v : α) :
    (Shape.ofList xs).has m v ↔ xs[m]? = some v := by
  induction xs using List.reverseRecOn with
  | nil => simp [Shape.ofList, Shape.has]
  | append_singleton xs x ih =>
    rw [Shape.ofList_append_singleton, Shape.ids_ofList_length]
    constructor
    · intro h
      rcases Shape.has_ins_inv h with h | ⟨rfl, rfl⟩
      · have hm : m < xs.length := Shape.mem_ids_ofList.mp (Shape.has_mem h).1
        rw [List.getElem?_append_left hm]
        exact ih.mp h
      · simp
    · intro h
      by_cases hm : m < xs.length
      · rw [List.getElem?_append_left hm] at h
        exact Shape.has_ins x _ (ih.mpr h)
      · have hlen : m < (xs ++ [x]).length := (List.getElem?_eq_some_iff.mp h).1
        rw [List.length_append, List.length_singleton] at hlen
        have hm2 : m = xs.length := by omega
        subst hm2
        rw [List.getElem?_append_right (le_refl _)] at h
        simp only [Nat.sub_self, List.getElem?_cons_zero, Option.some.injEq] at h
        subst h
        exact Shape.has_ins_new _ _ _

/-- Of two cells with equal values, the one allocated later lies below the right child of the
    other. -/
theorem Shape.inRight_ofList (xs : List α) :
    ∀ m n v, m < n → (Shape.ofList xs).has m v → (Shape.ofList xs).has n v →
      (Shape.ofList xs).inRight m n := by
  induction xs using List.reverseRecOn with
  | nil => intro m n v _ h; exact absurd h (by simp [Shape.ofList, Shape.has])
  | append_singleton xs x ih =>
    intro m n v hmn hm hn
    rw [Shape.ofList_append_singleton, Shape.ids_ofList_length] at hm hn ⊢
    have hlt : ∀ k w, (Shape.ofList xs).has k w → k < xs.length := fun k w hk =>
      Shape.mem_ids_ofList.mp (Shape.has_mem hk).1
    rcases Shape.has_ins_inv hn with hn1 | ⟨rfl, rfl⟩
    · rcases Shape.has_ins_inv hm with hm1 | ⟨rfl, rfl⟩
      · exact Shape.inRight_ins _ _ (ih m n v hmn hm1 hn1)
      · have := hlt n v hn1
        omega
    · rcases Shape.has_ins_inv hm with hm1 | ⟨hm2, -⟩
      · exact Shape.inRight_ins_new _ (Shape.bst_ofList xs) hm1
      · omega

end Dup

section DupClaim
variable {α : Type} [LinearOrder α]

theorem Inv.mem_ids {xs : List α} {t : BinaryTree α} (hinv : Inv xs t) {n : Nat}
    {nd : Node α} (hnd : t.heap[n]? = some nd) : n ∈ (Shape.ofList xs).ids := by
  rw [Shape.mem_ids_ofList, ← hinv.length_eq]
  exact (List.getElem?_eq_some_iff.mp hnd).1

/-- After the insertions `xs`, the `n`-th cell holds the `n`-th inserted value. -/
theorem Inv.cell_value {xs : List α} {t : BinaryTree α} (hinv : Inv xs t) (n : Nat) :
    (t.heap[n]?).map Node.value = xs[n]? := by
  cases hnd : t.heap[n]? with
  | none =>
    have : t.heap.length ≤ n := List.getElem?_eq_none_iff.mp hnd
    rw [hinv.length_eq] at this
    rw [List.getElem?_eq_none this]; rfl
  | some nd =>
    have := Rep.has_of_mem _ hinv.rep n nd (hinv.mem_ids hnd) hnd
    rw [Shape.has_ofList] at this
    rw [this]; rfl

/-- After the insertions `xs`, one more insertion of any value adds one cell and one entry to
    the in-order listing of the values. -/
theorem Inv.insert_adds {xs : List α} {t : BinaryTree α} (hinv : Inv xs t) (x : α) :
    ∃ t1 vs vs1, t.insert x = some t1 ∧ t.inorderValues = some vs ∧
      t1.inorderValues = some vs1 ∧ vs1.Perm (x :: vs) ∧
      t1.heap.length = t.heap.length + 1 := by
  obtain ⟨t1, h1, hinv1⟩ := insert_inv hinv x
  refine ⟨t1, _, _, h1, hinv.inorderValues_eq, hinv1.inorderValues_eq, ?_, ?_⟩
  · rw [Shape.ofList_append_singleton]
    exact Shape.vals_ins_perm _ _ _
  · rw [hinv1.length_eq, hinv.length_eq, List.length_append, List.length_singleton]

/-- C15. After the insertions `xs`: the `n`-th cell holds the `n`-th inserted value; every
    value below the left child of a node is strictly less than the value of the node; a node
    with the value of an earlier node lies below the right child of the earlier node; and one
    more insertion, also of a value that is present, adds one node holding that value. -/
theorem duplicate_policy (xs : List α) :
    ∃ t, build xs = some t ∧
      (∀ n : Nat, (t.heap[n]?).map Node.value = xs[n]?) ∧
      (∀ (n : Nat) (nd : Node α), t.heap[n]? = some nd →
        ∃ ls, subtreeValues t.heap nd.leftChild = some ls ∧ ∀ u ∈ ls, u < nd.value) ∧
      (∀ (m n : Nat) (ndm ndn : Node α), m < n → t.heap[m]? = some ndm →
        t.heap[n]? = some ndn → ndn.value = ndm.value →
        ∃ rs, subtreeNodes t.heap ndm.rightChild = some rs ∧ n ∈ rs) ∧
      ∀ x, ∃ t1 vs vs1, t.insert x = some t1 ∧ t.inorderValues = some vs ∧
        t1.inorderValues = some vs1 ∧ vs1.Perm (x :: vs) ∧
        t1.heap.length = t.heap.length + 1 := by
  obtain ⟨t, ht, hinv⟩ := build_inv xs
  have hlt := hinv.height_lt
  refine ⟨t, ht, hinv.cell_value, fun n nd hnd => ?_, fun m n ndm ndn hmn hm hn hv => ?_,
    hinv.insert_adds⟩
  · obtain ⟨l, r, lo1, hi1, hL, hR, hl, hr, hb⟩ :=
      Rep.node_at _ hinv.rep n nd (hinv.mem_ids hnd) hnd
    refine ⟨l.vals, ?_, (hb (Shape.bst_ofList xs)).1⟩
    rw [subtreeValues, Node.leftChild_eq, inorderAux_rep _ l _ _ hL (by omega), foldl_log,
      List.nil_append]
  · have h1 := Rep.has_of_mem _ hinv.rep m ndm (hinv.mem_ids hm) hm
    have h2 := Rep.has_of_mem _ hinv.rep n ndn (hinv.mem_ids hn) hn
    have hv2 : ndn.m_value = ndm.m_value := hv
    rw [hv2] at h2
    have hin := Shape.inRight_ofList xs m n _ hmn h1 h2
    obtain ⟨r, lo1, hi1, hR, hnr, hh⟩ := Rep.inRight_sub _ hinv.rep m n ndm hin hm
    refine ⟨r.ids, ?_, hnr⟩
    rw [subtreeNodes, Node.rightChild_eq, inorderNodesAux_rep r _ hR (by omega)]

end DupClaim

section Attach
variable {α : Type} [LinearOrder α]

/-- The slot at which a descent of `insertLeft` or `insertRight` ends, and what is written
    there: the new node keeps the old thread of the slot in its outer link and gets a thread to
    the owner of the slot in its inner link. -/
theorem insertSide_attach (x : α) (new : Nat) (s : Shape α) :
    ∀ (side : Side) (sl : Slot) (link : NodePtr) (lo hi : Ptr) (level fuel : Nat)
      (t t1 : BinaryTree α),
      t.get sl = some link → Rep t.heap side link lo hi s →
      (∃ nn, t.heap[new]? = some nn ∧ nn.m_value = x) → new ∉ s.ids →
      sl.owner ≠ some new → side = sl.side → side.neighbour lo hi = sl.owner →
      insertSide side fuel t sl new (side.neighbour lo hi) level = some t1 →
      ∃ fs, (fs = sl ∨ ∃ o ∈ s.ids, fs.owner = some o) ∧ Attached t t1 fs new := by
  induction s with
  | nil =>
    intro side sl link lo hi level fuel t t1 hget hrep hnew hfresh hown hside hnb hins
    obtain ⟨nn, hnn, hx⟩ := hnew
    simp only [Rep] at hrep
    subst hrep
    cases fuel with
    | zero => cases side <;> simp [insertSide, insertLeft, insertRight] at hins
    | succ k =>
      obtain ⟨t2, hins2, hl, hr, hs, -⟩ := insertSide_thread k level hget hnn hown
      rw [hins] at hins2
      cases hins2
      refine ⟨sl, Or.inl rfl, ?_⟩
      cases side with
      | L =>
        exact ⟨⟨_, hget, rfl, by rw [Slot.outer, ← hside]; exact hl⟩,
          by rw [Slot.inner, ← hside, ← hnb]; exact hr, hs⟩
      | R =>
        exact ⟨⟨_, hget, rfl, by rw [Slot.outer, ← hside]; exact hr⟩,
          by rw [Slot.inner, ← hside, ← hnb]; exact hl, hs⟩
  | node l p v r ihl ihr =>
    intro side sl link lo hi level fuel t t1 hget hrep hnew hfresh hown hside hnb hins
    obtain ⟨nn, hnn, hx⟩ := hnew
    obtain ⟨hlink, nd, hnd, hv, hL, hR⟩ := hrep
    subst hlink
    simp only [Shape.ids, List.mem_append, List.mem_cons, not_or] at hfresh
    have hpnew : p ≠ new := fun e => hfresh.2.1 e.symm
    cases fuel with
    | zero => cases side <;> simp [insertSide, insertLeft, insertRight] at hins
    | succ k =>
      rw [insertSide_child side k level _ hget hnd hnn, hv, hx] at hins
      by_cases hc : v > x
      · rw [if_pos hc] at hins
        obtain ⟨fs, hfs, hatt⟩ := ihl Side.L (Slot.left p) nd.m_leftChild lo (some p)
          ((level + 1) % 2 ^ 32) k t t1 (get_left_eq_some.mpr ⟨nd, hnd, rfl⟩) hL
          ⟨nn, hnn, hx⟩ hfresh.1 (by simpa [Slot.owner] using hpnew) rfl rfl hins
        refine ⟨fs, Or.inr ?_, hatt⟩
        rcases hfs with rfl | ⟨o, ho, h⟩
        · exact ⟨p, by simp [Shape.ids], rfl⟩
        · exact ⟨o, by simp [Shape.ids, ho], h⟩
      · rw [if_neg hc] at hins
        obtain ⟨fs, hfs, hatt⟩ := ihr Side.R (Slot.right p) nd.m_rightChild (some p) hi
          ((level + 1) % 2 ^ 32) k t t1 (get_right_eq_some.mpr ⟨nd, hnd, rfl⟩) hR
          ⟨nn, hnn, hx⟩ hfresh.2.2 (by simpa [Slot.owner] using hpnew) rfl rfl hins
        refine ⟨fs, Or.inr ?_, hatt⟩
        rcases hfs with rfl | ⟨o, ho, h⟩
        · exact ⟨p, by simp [Shape.ids], rfl⟩
        · exact ⟨o, by simp [Shape.ids, ho], h⟩

end Attach

section Frame
variable {α : Type}

theorem getElem?_append_singleton_of_ne (h : List (Node α)) (c : Node α) {i : Nat}
    (hi : i ≠ h.length) : (h ++ [c])[i]? = h[i]? := by
  rcases Nat.lt_or_gt_of_ne hi with hlt | hgt
  · exact List.getElem?_append_left hlt
  · rw [List.getElem?_eq_none (by simp; omega), List.getElem?_eq_none (by omega)]

/-- Allocating a cell leaves the slots of the other cells as they are. -/
theorem get_alloc (t : BinaryTree α) (c : Node α) {sl : Slot}
    (hown : sl.owner ≠ some t.heap.length) :
    ({ t with heap := t.heap ++ [c] } : BinaryTree α).get sl = t.get sl := by
  cases sl with
  | root => rfl
  | left i =>
    have hi : i ≠ t.heap.length := fun e => hown (by rw [e]; rfl)
    simp only [BinaryTree.get, getElem?_append_singleton_of_ne _ _ hi]
  | right i =>
    have hi : i ≠ t.heap.length := fun e => hown (by rw [e]; rfl)
    simp only [BinaryTree.get, getElem?_append_singleton_of_ne _ _ hi]

/-- A represented link tagged `NO_THREAD` points at a cell. -/
theorem Rep.child_target {h : List (Node α)} {s : Shape α} {side link lo hi}
    (hr : Rep h side link lo hi s) (htag : link.getInt = Tag.NO_THREAD) :
    ∃ q nd, link.getPointer = some q ∧ h[q]? = some nd := by
  cases s with
  | nil => simp only [Rep] at hr; rw [hr] at htag; cases htag
  | node l i v r =>
    obtain ⟨hlink, nd, hnd, -⟩ := hr
    exact ⟨i, nd, by rw [hlink], hnd⟩

variable [LinearOrder α]

/-- After the insertions `xs`, every link tagged `NO_THREAD` points at a cell. -/
theorem Inv.link_wf {xs : List α} {t : BinaryTree α} (hinv : Inv xs t) {sl : Slot}
    {link : NodePtr} (hget : t.get sl = some link) (htag : link.getInt = Tag.NO_THREAD) :
    ∃ q nd, link.getPointer = some q ∧ t.heap[q]? = some nd := by
  cases sl with
  | root =>
    simp only [BinaryTree.get, Option.some.injEq] at hget
    subst hget
    exact hinv.rep.child_target htag
  | left n =>
    obtain ⟨nd, hnd, rfl⟩ := get_left_eq_some.mp hget
    obtain ⟨l, r, lo1, hi1, hL, -⟩ := Rep.node_at _ hinv.rep n nd (hinv.mem_ids hnd) hnd
    exact hL.child_target htag
  | right n =>
    obtain ⟨nd, hnd, rfl⟩ := get_right_eq_some.mp hget
    obtain ⟨l, r, lo1, hi1, -, hR, -⟩ := Rep.node_at _ hinv.rep n nd (hinv.mem_ids hnd) hnd
    exact hR.child_target htag

/-- What one call of `insert` changes: the slot `fs`, tagged `THREAD` before, receives the new
    cell; the new cell keeps the old content of `fs` in its outer link and gets a thread to the
    owner of `fs` in its inner link; no other slot of an existing cell and no value changes. -/
theorem Inv.insert_attach {xs : List α} {t t1 : BinaryTree α} (hinv : Inv xs t) {x : α}
    (hins : t.insert x = some t1) :
    ∃ fs old, fs.owner ≠ some t.heap.length ∧
      t.get fs = some old ∧ old.getInt = Tag.THREAD ∧
      t1.get (fs.outer t.heap.length) = some old ∧
      t1.get (fs.inner t.heap.length) = some ⟨fs.owner, Tag.THREAD⟩ ∧
      t1.get fs = some ⟨some t.heap.length, Tag.NO_THREAD⟩ ∧
      (∀ sl, sl ≠ fs → sl.owner ≠ some t.heap.length → t1.get sl = t.get sl) ∧
      (∀ n : Nat, n ≠ t.heap.length →
        (t1.heap[n]?).map Node.value = (t.heap[n]?).map Node.value) ∧
      (t1.heap[t.heap.length]?).map Node.value = some x ∧
      t1.heap.length = t.heap.length + 1 := by
  obtain ⟨t2, fs0, hins2, post⟩ := insert_post hinv x
  rw [hins] at hins2
  cases hins2
  have hlen := hinv.length_eq
  have hrep0 : Rep (t.heap ++ [(⟨x, NodePtr.null, NodePtr.null⟩ : Node α)]) Side.L t.m_root
      none none (Shape.ofList xs) := by
    refine Rep.congr (fun j hj => ?_) hinv.rep
    have : j < t.heap.length := by rw [hlen]; exact Shape.mem_ids_ofList.mp hj
    exact List.getElem?_append_left this
  have hfresh : t.heap.length ∉ (Shape.ofList xs).ids := by
    intro h
    have := Shape.mem_ids_ofList.mp h
    omega
  have hins0 : insertSide Side.L (t.heap.length + 1 + 1)
      { t with heap := t.heap ++ [⟨x, NodePtr.null, NodePtr.null⟩] } Slot.root t.heap.length
      (Side.L.neighbour none none) 1 = some t1 := by
    simpa [BinaryTree.insert, insertSide, Side.neighbour] using hins
  obtain ⟨fs, hfs, hatt⟩ := insertSide_attach x t.heap.length (Shape.ofList xs) Side.L
    Slot.root t.m_root none none 1 (t.heap.length + 1 + 1)
    { t with heap := t.heap ++ [⟨x, NodePtr.null, NodePtr.null⟩] } t1 rfl hrep0
    ⟨⟨x, NodePtr.null, NodePtr.null⟩, by simp, rfl⟩ hfresh (by simp [Slot.owner]) rfl rfl hins0
  have hown : fs.owner ≠ some t.heap.length := by
    rcases hfs with rfl | ⟨o, ho, h⟩
    · simp [Slot.owner]
    · rw [h]
      intro e
      exact hfresh (Option.some.inj e ▸ ho)
  obtain ⟨old, hold, htag, houter⟩ := hatt.old_thread
  have hfs0 : fs = fs0 := by
    by_contra hne
    have := post.frame fs hne (by rw [← hlen]; exact hown)
    rw [hatt.slot_child, hold] at this
    rw [← Option.some.inj this] at htag
    cases htag
  subst hfs0
  refine ⟨fs, old, hown, ?_, htag, houter, hatt.inner_thread, hatt.slot_child, ?_, ?_, ?_, ?_⟩
  · rw [← hold, get_alloc t _ hown]
  · intro sl h1 h2
    rw [post.frame sl h1 (by rw [← hlen]; exact h2), get_alloc t _ h2]
  · intro n hn
    have := post.value_eq n
    simp only [getElem?_append_singleton_of_ne _ _ hn] at this
    simpa [Option.map_map] using congrArg (Option.map id) this
  · have := post.value_eq t.heap.length
    simp only [List.getElem?_append_right (le_refl _), Nat.sub_self, List.getElem?_cons_zero,
      Option.map_some'] at this
    exact this
  · rw [post.length_eq]; simp

end Frame

section FrameClaims
variable {α : Type} [LinearOrder α]

/-- The slot that holds a child link to the cell just inserted is the slot at which the
    descent ended. -/
theorem Inv.attach_slot_unique {xs : List α} {t t1 : BinaryTree α} (hinv : Inv xs t)
    {fs sl : Slot} {old : NodePtr}
    (htag : old.getInt = Tag.THREAD)
    (houter : t1.get (fs.outer t.heap.length) = some old)
    (hinner : t1.get (fs.inner t.heap.length) = some ⟨fs.owner, Tag.THREAD⟩)
    (hframe : ∀ sl, sl ≠ fs → sl.owner ≠ some t.heap.length → t1.get sl = t.get sl)
    (hsl : t1.get sl = some ⟨some t.heap.length, Tag.NO_THREAD⟩) : sl = fs := by
  by_contra hne
  by_cases hown : sl.owner = some t.heap.length
  · -- a link of the new cell: both are threads
    have hthread : ∀ w, t1.get sl = some w → w.getInt = Tag.THREAD := by
      intro w hw
      cases sl with
      | root => simp [Slot.owner] at hown
      | left i =>
        simp only [Slot.owner, Option.some.injEq] at hown
        subst hown
        cases hs : fs.side with
        | L =>
          simp only [Slot.outer, hs] at houter
          rw [houter] at hw; cases hw; exact htag
        | R =>
          simp only [Slot.inner, hs] at hinner
          rw [hinner] at hw; cases hw; rfl
      | right i =>
        simp only [Slot.owner, Option.some.injEq] at hown
        subst hown
        cases hs : fs.side with
        | L =>
          simp only [Slot.inner, hs] at hinner
          rw [hinner] at hw; cases hw; rfl
        | R =>
          simp only [Slot.outer, hs] at houter
          rw [houter] at hw; cases hw; exact htag
    have := hthread _ hsl
    cases this
  · -- a link of an existing cell: it is as before, and pointed at an existing cell
    have h1 := hframe sl hne hown
    rw [hsl] at h1
    obtain ⟨q, nd, hq, hnd⟩ := hinv.link_wf h1.symm rfl
    simp only [Option.some.injEq] at hq
    subst hq
    have := (List.getElem?_eq_some_iff.mp hnd).1
    omega

/-- C16, as the code has it.  Right after `insert`, when the new node has been attached as the
    left child of a node `P`, its right link is a thread to `P` and `next()` of the new node is
    `P`: the forwarded neighbour is the in-order successor.  When it has been attached as the
    right child of `P`, its left link is a thread to `P` and `previous()` of the new node is
    `P`: the forwarded neighbour is the in-order predecessor. -/
theorem forwarded_neighbour (xs : List α) (x : α) :
    ∃ t t1 nn, build xs = some t ∧ t.insert x = some t1 ∧
      t1.heap[t.heap.length]? = some nn ∧ nn.value = x ∧
      (∀ (P : Nat) (ndP : Node α), t1.heap[P]? = some ndP →
        ndP.m_leftChild = ⟨some t.heap.length, Tag.NO_THREAD⟩ →
        nn.m_rightChild = ⟨some P, Tag.THREAD⟩ ∧ nn.next t1.heap = some (some P)) ∧
      (∀ (P : Nat) (ndP : Node α), t1.heap[P]? = some ndP →
        ndP.m_rightChild = ⟨some t.heap.length, Tag.NO_THREAD⟩ →
        nn.m_leftChild = ⟨some P, Tag.THREAD⟩ ∧ nn.previous t1.heap = some (some P)) := by
  obtain ⟨t, ht, hinv⟩ := build_inv xs
  obtain ⟨t1, hins, -⟩ := insert_inv hinv x
  obtain ⟨fs, old, hown, hold, htag, houter, hinner, hslot, hframe, hval, hvnew, hlen⟩ :=
    hinv.insert_attach hins
  obtain ⟨nn, hnn⟩ : ∃ nn, t1.heap[t.heap.length]? = some nn := by
    cases h : t1.heap[t.heap.length]? with
    | none => rw [h] at hvnew; cases hvnew
    | some nn => exact ⟨nn, rfl⟩
  have hnv : nn.value = x := by
    rw [hnn] at hvnew
    exact Option.some.inj hvnew
  refine ⟨t, t1, nn, ht, hins, hnn, hnv, fun P ndP hP hl => ?_, fun P ndP hP hr => ?_⟩
  · have hfs : Slot.left P = fs :=
      hinv.attach_slot_unique htag houter hinner hframe
        (get_left_eq_some.mpr ⟨ndP, hP, hl⟩)
    subst hfs
    obtain ⟨n2, hn2, hr2⟩ := get_right_eq_some.mp hinner
    rw [hnn] at hn2
    cases hn2
    exact ⟨hr2, by simp [Node.next, hr2, Slot.owner]⟩
  · have hfs : Slot.right P = fs :=
      hinv.attach_slot_unique htag houter hinner hframe
        (get_right_eq_some.mpr ⟨ndP, hP, hr⟩)
    subst hfs
    obtain ⟨n2, hn2, hl2⟩ := get_left_eq_some.mp hinner
    rw [hnn] at hn2
    cases hn2
    exact ⟨hl2, by simp [Node.previous, hl2, Slot.owner]⟩

/-- C16 fails as stated: inserting 3 after 5 attaches the new node as the left child of the
    node holding 5, and `previous()` of the new node is null, not that node; inserting 8 after
    5 attaches the new node as the right child, and `next()` of the new node is null. -/
theorem forwarded_neighbour_counterexample :
    (∃ (t1 : BinaryTree Nat) (ndP nn : Node Nat), build [5, 3] = some t1 ∧
      t1.heap[0]? = some ndP ∧ ndP.m_leftChild = ⟨some 1, Tag.NO_THREAD⟩ ∧
      t1.heap[1]? = some nn ∧ nn.previous t1.heap = some none ∧
      nn.next t1.heap = some (some 0)) ∧
    (∃ (t1 : BinaryTree Nat) (ndP nn : Node Nat), build [5, 8] = some t1 ∧
      t1.heap[0]? = some ndP ∧ ndP.m_rightChild = ⟨some 1, Tag.NO_THREAD⟩ ∧
      t1.heap[1]? = some nn ∧ nn.next t1.heap = some none ∧
      nn.previous t1.heap = some (some 0)) :=
  ⟨⟨⟨[⟨5, ⟨some 1, Tag.NO_THREAD⟩, ⟨none, Tag.THREAD⟩⟩,
        ⟨3, ⟨none, Tag.THREAD⟩, ⟨some 0, Tag.THREAD⟩⟩], ⟨some 0, Tag.NO_THREAD⟩, 2, 2⟩,
      ⟨5, ⟨some 1, Tag.NO_THREAD⟩, ⟨none, Tag.THREAD⟩⟩,
      ⟨3, ⟨none, Tag.THREAD⟩, ⟨some 0, Tag.THREAD⟩⟩,
      by decide, by decide, by decide, by decide, by decide, by decide⟩,
    ⟨⟨[⟨5, ⟨none, Tag.THREAD⟩, ⟨some 1, Tag.NO_THREAD⟩⟩,
        ⟨8, ⟨some 0, Tag.THREAD⟩, ⟨none, Tag.THREAD⟩⟩], ⟨some 0, Tag.NO_THREAD⟩, 2, 2⟩,
      ⟨5, ⟨none, Tag.THREAD⟩, ⟨some 1, Tag.NO_THREAD⟩⟩,
      ⟨8, ⟨some 0, Tag.THREAD⟩, ⟨none, Tag.THREAD⟩⟩,
      by decide, by decide, by decide, by decide, by decide, by decide⟩⟩

/-- C17. One call of `insert(x)` on a tree built by insertions ends at a slot `fs` of the tree
    that was tagged `THREAD`.  The new node takes the old content of `fs` (its target, with the
    tag `THREAD`) as its outer link: the left link when `fs` is the root slot or a left slot,
    the right link when `fs` is a right slot.  Its inner link becomes a thread to the owner of
    `fs` (null for the root slot), and `fs` becomes a child link to the new node.  Every other
    link of every existing node, and the value of every existing node, is as before. -/
theorem insert_effect_frame (xs : List α) (x : α) :
    ∃ t t1 fs old, build xs = some t ∧ t.insert x = some t1 ∧
      fs.owner ≠ some t.heap.length ∧
      t.get fs = some old ∧ old.getInt = Tag.THREAD ∧
      (match fs with
        | Slot.root =>
          t1.get (Slot.left t.heap.length) = some old ∧
          t1.get (Slot.right t.heap.length) = some ⟨none, Tag.THREAD⟩
        | Slot.left P =>
          t1.get (Slot.left t.heap.length) = some old ∧
          t1.get (Slot.right t.heap.length) = some ⟨some P, Tag.THREAD⟩
        | Slot.right P =>
          t1.get (Slot.right t.heap.length) = some old ∧
          t1.get (Slot.left t.heap.length) = some ⟨some P, Tag.THREAD⟩) ∧
      t1.get fs = some ⟨some t.heap.length, Tag.NO_THREAD⟩ ∧
      (∀ sl, sl ≠ fs → sl.owner ≠ some t.heap.length → t1.get sl = t.get sl) ∧
      (∀ n : Nat, n ≠ t.heap.length →
        (t1.heap[n]?).map Node.value = (t.heap[n]?).map Node.value) ∧
      (t1.heap[t.heap.length]?).map Node.value = some x ∧
      t1.heap.length = t.heap.length + 1 := by
  obtain ⟨t, ht, hinv⟩ := build_inv xs
  obtain ⟨t1, hins, -⟩ := insert_inv hinv x
  obtain ⟨fs, old, hown, hold, htag, houter, hinner, hslot, hframe, hval, hvnew, hlen⟩ :=
    hinv.insert_attach hins
  refine ⟨t, t1, fs, old, ht, hins, hown, hold, htag, ?_, hslot, hframe, hval, hvnew, hlen⟩
  cases fs with
  | root => exact ⟨houter, hinner⟩
  | left P => exact ⟨houter, hinner⟩
  | right P => exact ⟨houter, hinner⟩

/-- C18. After any sequence of insertions, every link tagged `NO_THREAD` (the root link and
    both links of every node) has a non-null target, which is a node of the tree; the root
    link is tagged `THREAD` with a null target exactly when nothing has been inserted; and so
    `previous()` and `next()` of every node, and one more `insert`, return. -/
theorem links_well_formed (xs : List α) :
    ∃ t, build xs = some t ∧
      (∀ sl link, t.get sl = some link → link.getInt = Tag.NO_THREAD →
        ∃ q nd, link.getPointer = some q ∧ t.heap[q]? = some nd) ∧
      ((t.m_root.getInt = Tag.THREAD ∧ t.m_root.getPointer = none) ↔ xs = []) ∧
      t.heap.length = xs.length ∧
      (∀ (n : Nat) (nd : Node α), t.heap[n]? = some nd →
        ∃ p q, nd.previous t.heap = some p ∧ nd.next t.heap = some q) ∧
      ∀ x, ∃ t1, t.insert x = some t1 := by
  obtain ⟨t, ht, hinv⟩ := build_inv xs
  refine ⟨t, ht, fun sl link h1 h2 => hinv.link_wf h1 h2, ?_, hinv.length_eq,
    fun n nd hnd => ?_, fun x => ?_⟩
  · constructor
    · exact fun h => hinv.root_none_iff.mp h.2
    · rintro rfl
      obtain ⟨hrep, -⟩ := hinv
      simp only [Shape.ofList, List.foldl_nil, Rep] at hrep
      rw [hrep]
      exact ⟨rfl, rfl⟩
  · obtain ⟨i, hi⟩ := List.mem_iff_getElem?.mp (hinv.mem_ids hnd)
    obtain ⟨nd1, h1, -, -, -, hp, hn⟩ := hinv.neighbours_root i n hi
    rw [hnd] at h1
    cases h1
    exact ⟨_, _, hp, hn⟩
  · obtain ⟨t1, h1, -⟩ := insert_inv hinv x
    exact ⟨t1, h1⟩

end FrameClaims

section Fuel
variable {α : Type} [LinearOrder α]

/-- A descent of `insertLeft` or `insertRight` that ends within some fuel gives the same tree
    with more fuel. -/
theorem insertSide_fuel_succ (fuel : Nat) :
    ∀ (side : Side) (t : BinaryTree α) (sl : Slot) (new : Nat) (nb : Ptr) (level : Nat)
      (t1 : BinaryTree α),
      insertSide side fuel t sl new nb level = some t1 →
      insertSide side (fuel + 1) t sl new nb level = some t1 := by
  induction fuel with
  | zero =>
    intro side t sl new nb level t1 h
    cases side <;> simp [insertSide, insertLeft, insertRight] at h
  | succ k ih =>
    intro side t sl new nb level t1 h
    cases side with
    | L =>
      simp only [insertSide] at h ⊢
      rw [insertLeft] at h ⊢
      cases hg : t.get sl with
      | none => simp [hg] at h
      | some p =>
        simp only [hg] at h ⊢
        by_cases htag : p.getInt = Tag.THREAD
        · rw [if_pos htag] at h ⊢; exact h
        · rw [if_neg htag] at h ⊢
          cases hq : p.getPointer with
          | none => simp [hq] at h
          | some q =>
            simp only [hq] at h ⊢
            cases hpn : t.heap[q]? with
            | none => simp [hpn] at h
            | some pn =>
              cases hnn : t.heap[new]? with
              | none => simp [hpn, hnn] at h
              | some nn =>
                simp only [hpn, hnn] at h ⊢
                by_cases hc : pn.value > nn.value
                · rw [if_pos hc] at h ⊢
                  exact ih Side.L _ _ _ _ _ _ h
                · rw [if_neg hc] at h ⊢
                  exact ih Side.R _ _ _ _ _ _ h
    | R =>
      simp only [insertSide] at h ⊢
      rw [insertRight] at h ⊢
      cases hg : t.get sl with
      | none => simp [hg] at h
      | some p =>
        simp only [hg] at h ⊢
        by_cases htag : p.getInt = Tag.THREAD
        · rw [if_pos htag] at h ⊢; exact h
        · rw [if_neg htag] at h ⊢
          cases hq : p.getPointer with
          | none => simp [hq] at h
          | some q =>
            simp only [hq] at h ⊢
            cases hpn : t.heap[q]? with
            | none => simp [hpn] at h
            | some pn =>
              cases hnn : t.heap[new]? with
              | none => simp [hpn, hnn] at h
              | some nn =>
                simp only [hpn, hnn] at h ⊢
                by_cases hc : pn.value > nn.value
                · rw [if_pos hc] at h ⊢
                  exact ih Side.L _ _ _ _ _ _ h
                · rw [if_neg hc] at h ⊢
                  exact ih Side.R _ _ _ _ _ _ h

theorem insertSide_fuel_add {side : Side} {fuel : Nat} {t : BinaryTree α} {sl : Slot}
    {new : Nat} {nb : Ptr} {level : Nat} {t1 : BinaryTree α}
    (h : insertSide side fuel t sl new nb level = some t1) (k : Nat) :
    insertSide side (fuel + k) t sl new nb level = some t1 := by
  induction k with
  | zero => exact h
  | succ k ih => exact insertSide_fuel_succ _ _ _ _ _ _ _ _ ih

theorem searchLoop_fuel_succ (h : List (Node α)) (x : α) (fuel : Nat) :
    ∀ (p res : Ptr), searchLoop h x fuel p = some res →
      searchLoop h x (fuel + 1) p = some res := by
  induction fuel with
  | zero => intro p res hs; simp [searchLoop] at hs
  | succ k ih =>
    intro p res hs
    cases p with
    | none => exact hs
    | some n =>
      rw [searchLoop] at hs ⊢
      cases hn : h[n]? with
      | none => simp [hn] at hs
      | some nd =>
        simp only [hn] at hs ⊢
        by_cases hv : nd.value = x
        · rw [if_pos hv] at hs ⊢; exact hs
        · rw [if_neg hv] at hs ⊢
          by_cases hc : nd.value > x
          · rw [if_pos hc] at hs ⊢; exact ih _ _ hs
          · rw [if_neg hc] at hs ⊢; exact ih _ _ hs

theorem searchLoop_fuel_add {h : List (Node α)} {x : α} {fuel : Nat} {p res : Ptr}
    (hs : searchLoop h x fuel p = some res) (k : Nat) :
    searchLoop h x (fuel + k) p = some res := by
  induction k with
  | zero => exact hs
  | succ k ih => exact searchLoop_fuel_succ _ _ _ _ _ ih

end Fuel

section Totality
variable {α : Type} [LinearOrder α]

/-- After the insertions `xs`, the loops of `previous()` and `next()` on a node end within any
    fuel that is at least the number of cells, with the result of the method. -/
theorem Inv.loops_total {xs : List α} {t : BinaryTree α} (hinv : Inv xs t) {n : Nat}
    {nd : Node α} (hnd : t.heap[n]? = some nd) :
    ∃ p q, nd.previous t.heap = some p ∧ nd.next t.heap = some q ∧
      (nd.m_leftChild.getInt = Tag.NO_THREAD → ∀ fuel, t.heap.length ≤ fuel →
        Node.previousLoop t.heap fuel nd.m_leftChild.getPointer = some p) ∧
      (nd.m_rightChild.getInt = Tag.NO_THREAD → ∀ fuel, t.heap.length ≤ fuel →
        Node.nextLoop t.heap fuel nd.m_rightChild.getPointer = some q) := by
  obtain ⟨l, r, lo1, hi1, hL, hR, hl, hr, -⟩ :=
    Rep.node_at _ hinv.rep n nd (hinv.mem_ids hnd) hnd
  have hlt := hinv.height_lt
  have hprev : ∃ p, nd.previous t.heap = some p ∧
      (nd.m_leftChild.getInt = Tag.NO_THREAD → ∀ fuel, t.heap.length ≤ fuel →
        Node.previousLoop t.heap fuel nd.m_leftChild.getPointer = some p) := by
    by_cases htag : nd.m_leftChild.getInt = Tag.THREAD
    · exact ⟨_, by rw [Node.previous, if_pos htag], fun h => by rw [htag] at h; cases h⟩
    · have hne : l ≠ Shape.nil := by
        rintro rfl
        simp only [Rep] at hL
        rw [hL] at htag
        exact htag rfl
      have hptr : nd.m_leftChild.getPointer = l.rootId := by
        rw [← hL.child_eq, NodePtr.child, if_neg htag]
      refine ⟨l.lastId, ?_, fun _ fuel hf => ?_⟩
      · rw [Node.previous, if_neg htag, hptr]
        exact previousLoop_rep l _ hL (by omega) hne
      · rw [hptr]
        exact previousLoop_rep l _ hL (by omega) hne
  have hnext : ∃ q, nd.next t.heap = some q ∧
      (nd.m_rightChild.getInt = Tag.NO_THREAD → ∀ fuel, t.heap.length ≤ fuel →
        Node.nextLoop t.heap fuel nd.m_rightChild.getPointer = some q) := by
    by_cases htag : nd.m_rightChild.getInt = Tag.THREAD
    · exact ⟨_, by rw [Node.next, if_pos htag], fun h => by rw [htag] at h; cases h⟩
    · have hne : r ≠ Shape.nil := by
        rintro rfl
        simp only [Rep] at hR
        rw [hR] at htag
        exact htag rfl
      have hptr : nd.m_rightChild.getPointer = r.rootId := by
        rw [← hR.child_eq, NodePtr.child, if_neg htag]
      refine ⟨r.firstId, ?_, fun _ fuel hf => ?_⟩
      · rw [Node.next, if_neg htag, hptr]
        exact nextLoop_rep r _ hR (by omega) hne
      · rw [hptr]
        exact nextLoop_rep r _ hR (by omega) hne
  obtain ⟨p, hp1, hp2⟩ := hprev
  obtain ⟨q, hq1, hq2⟩ := hnext
  exact ⟨p, q, hp1, hq1, hp2, hq2⟩

/-- C19. On every tree built by insertions and for every value `x`: the descent of
    `insert(x)`, the loop of `search(x)` and the recursion of `searchRecursive(x)` end with a
    result that is the same for every fuel above the number of cells, and the loops of
    `previous()` and `next()` of every node likewise; none of them fails. -/
theorem descents_total (xs : List α) (x : α) :
    ∃ t t1 res, build xs = some t ∧
      (t.insert x = some t1 ∧ ∀ fuel, t.heap.length + 1 < fuel →
        insertLeft fuel { t with heap := t.heap ++ [⟨x, NodePtr.null, NodePtr.null⟩] }
          Slot.root t.heap.length none 1 = some t1) ∧
      (t.search x = some res ∧ ∀ fuel, t.heap.length < fuel →
        searchLoop t.heap x fuel t.m_root.getPointer = some res) ∧
      (t.searchRecursive x = some res ∧ ∀ fuel, t.heap.length < fuel →
        searchRecursiveAux t.heap x fuel t.m_root.getPointer = some res) ∧
      ∀ (n : Nat) (nd : Node α), t.heap[n]? = some nd →
        ∃ p q, nd.previous t.heap = some p ∧ nd.next t.heap = some q ∧
          (nd.m_leftChild.getInt = Tag.NO_THREAD → ∀ fuel, t.heap.length ≤ fuel →
            Node.previousLoop t.heap fuel nd.m_leftChild.getPointer = some p) ∧
          (nd.m_rightChild.getInt = Tag.NO_THREAD → ∀ fuel, t.heap.length ≤ fuel →
            Node.nextLoop t.heap fuel nd.m_rightChild.getPointer = some q) := by
  obtain ⟨t, ht, hinv⟩ := build_inv xs
  obtain ⟨t1, hins, -⟩ := insert_inv hinv x
  obtain ⟨res, hs, -⟩ := hinv.search_eq x
  have hsearch : ∀ fuel, t.heap.length < fuel →
      searchLoop t.heap x fuel t.m_root.getPointer = some res := by
    intro fuel hf
    obtain ⟨k, rfl⟩ : ∃ k, fuel = t.heap.length + 1 + k := ⟨fuel - (t.heap.length + 1), by omega⟩
    exact searchLoop_fuel_add hs k
  refine ⟨t, t1, res, ht, ⟨hins, fun fuel hf => ?_⟩, ⟨hs, hsearch⟩, ⟨?_, fun fuel hf => ?_⟩,
    fun n nd hnd => hinv.loops_total hnd⟩
  · obtain ⟨k, rfl⟩ : ∃ k, fuel = t.heap.length + 1 + 1 + k :=
      ⟨fuel - (t.heap.length + 1 + 1), by omega⟩
    have h0 : insertSide Side.L (t.heap.length + 1 + 1)
        { t with heap := t.heap ++ [⟨x, NodePtr.null, NodePtr.null⟩] } Slot.root t.heap.length
        none 1 = some t1 := by
      simpa [BinaryTree.insert, insertSide] using hins
    exact insertSide_fuel_add h0 k
  · rw [BinaryTree.searchRecursive, searchRecursiveAux_eq]; exact hs
  · rw [searchRecursiveAux_eq]; exact hsearch fuel hf

end Totality

section Stable
variable {α : Type} [LinearOrder α]

/-- Insertion into an ordered shape splits the in-order listing after the last value that is
    at most `x` and puts the new node there. -/
theorem Shape.ins_split (x : α) (new : Nat) (s : Shape α) (hb : s.Bst) :
    ∃ (pi qi : List Nat) (pv qv : List α), s.ids = pi ++ qi ∧ s.vals = pv ++ qv ∧
      pi.length = pv.length ∧ (∀ u ∈ pv, u ≤ x) ∧ (∀ u ∈ qv, x < u) ∧
      (s.ins x new).ids = pi ++ new :: qi ∧ (s.ins x new).vals = pv ++ x :: qv := by
  induction s with
  | nil => exact ⟨[], [], [], [], rfl, rfl, rfl, by simp, by simp, rfl, rfl⟩
  | node l i v r ihl ihr =>
    obtain ⟨b1, b2, b3, b4⟩ := hb
    by_cases hc : v > x
    · obtain ⟨pi, qi, pv, qv, h1, h2, h3, h4, h5, h6, h7⟩ := ihl b3
      refine ⟨pi, qi ++ i :: r.ids, pv, qv ++ v :: r.vals, ?_, ?_, h3, h4, ?_, ?_, ?_⟩
      · simp [Shape.ids, h1]
      · simp [Shape.vals, h2]
      · intro u hu
        rcases List.mem_append.mp hu with hu | hu
        · exact h5 u hu
        · rcases List.mem_cons.mp hu with rfl | hu
          · exact hc
          · exact lt_of_lt_of_le hc (b2 u hu)
      · simp [Shape.ins, if_pos hc, Shape.ids, h6]
      · simp [Shape.ins, if_pos hc, Shape.vals, h7]
    · obtain ⟨pi, qi, pv, qv, h1, h2, h3, h4, h5, h6, h7⟩ := ihr b4
      have hvx : v ≤ x := not_lt.mp hc
      refine ⟨l.ids ++ i :: pi, qi, l.vals ++ v :: pv, qv, ?_, ?_, ?_, ?_, h5, ?_, ?_⟩
      · simp [Shape.ids, h1]
      · simp [Shape.vals, h2]
      · simp [Shape.vals_length, h3]
      · intro u hu
        rcases List.mem_append.mp hu with hu | hu
        · exact le_trans (le_of_lt (b1 u hu)) hvx
        · rcases List.mem_cons.mp hu with rfl | hu
          · exact hvx
          · exact h4 u hu
      · simp [Shape.ins, if_neg hc, Shape.ids, h6]
      · simp [Shape.ins, if_neg hc, Shape.vals, h7]

/-- The same split, by position. -/
theorem Shape.ins_take_drop (x : α) (new : Nat) (s : Shape α) (hb : s.Bst) :
    ∃ k, (∀ u ∈ s.vals.take k, u ≤ x) ∧ (∀ u ∈ s.vals.drop k, x < u) ∧
      (s.ins x new).vals = s.vals.take k ++ x :: s.vals.drop k ∧
      (s.ins x new).ids = s.ids.take k ++ new :: s.ids.drop k := by
  obtain ⟨pi, qi, pv, qv, h1, h2, h3, h4, h5, h6, h7⟩ := Shape.ins_split x new s hb
  refine ⟨pv.length, ?_, ?_, ?_, ?_⟩
  · rw [h2, List.take_left']  <;> first | exact h4 | rfl
  · rw [h2, List.drop_left'] <;> first | exact h5 | rfl
  · rw [h7, h2, List.take_left' rfl, List.drop_left' rfl]
  · rw [h6, h1, List.take_left' h3, List.drop_left' h3]

/-- In the in-order listing of the shape of a list, of two nodes with equal values the one
    allocated earlier comes first. -/
theorem Shape.stable_ofList (xs : List α) :
    List.Pairwise (fun a b : Nat × α => a.2 = b.2 → a.1 < b.1)
      ((Shape.ofList xs).ids.zip (Shape.ofList xs).vals) := by
  induction xs using List.reverseRecOn with
  | nil => simp [Shape.ofList, Shape.ids, Shape.vals]
  | append_singleton xs x ih =>
    obtain ⟨pi, qi, pv, qv, h1, h2, h3, h4, h5, h6, h7⟩ :=
      Shape.ins_split x (Shape.ofList xs).ids.length (Shape.ofList xs) (Shape.bst_ofList xs)
    rw [Shape.ofList_append_singleton, h6, h7, List.zip_append h3, List.zip_cons_cons]
    rw [h1, h2, List.zip_append h3, List.pairwise_append] at ih
    obtain ⟨ih1, ih2, ih3⟩ := ih
    rw [List.pairwise_append, List.pairwise_cons]
    refine ⟨ih1, ⟨fun b hb hxb => ?_, ih2⟩, fun a ha b hb => ?_⟩
    · have := h5 b.2 (List.of_mem_zip hb).2
      rw [← hxb] at this
      exact absurd this (lt_irrefl _)
    · rcases List.mem_cons.mp hb with rfl | hb
      · intro _
        have hm : a.1 ∈ (Shape.ofList xs).ids := by
          rw [h1]; exact List.mem_append_left _ (List.of_mem_zip ha).1
        rw [Shape.ids_ofList_length]
        exact Shape.mem_ids_ofList.mp hm
      · exact ih3 a ha b hb

/-- C20. On a tree built by insertions, with in-order listing `L` of the values and `N` of the
    nodes, `insert(x)` puts `x` at a position `k` such that everything before is at most `x`
    and everything after is greater than `x`: right after the last element that is at most
    `x`.  The other elements keep their order, in `L` and in `N`; position `i` of `L` is the
    value of the node at position `i` of `N`; and of two nodes with equal values the one
    inserted earlier comes first in the listing. -/
theorem insert_stable_sorted (xs : List α) (x : α) :
    ∃ (t t1 : BinaryTree α) (L L1 : List α) (N N1 : List Nat),
      build xs = some t ∧ t.insert x = some t1 ∧
      t.inorderValues = some L ∧ t1.inorderValues = some L1 ∧
      t.inorderNodes = some N ∧ t1.inorderNodes = some N1 ∧
      (∃ k, (∀ u ∈ L.take k, u ≤ x) ∧ (∀ u ∈ L.drop k, x < u) ∧
        L1 = L.take k ++ x :: L.drop k ∧ N1 = N.take k ++ t.heap.length :: N.drop k) ∧
      (∀ i n : Nat, N[i]? = some n → L[i]? = (t.heap[n]?).map Node.value) ∧
      List.Pairwise (fun a b : Nat × α => a.2 = b.2 → a.1 < b.1) (N.zip L) ∧
      List.Pairwise (fun a b : Nat × α => a.2 = b.2 → a.1 < b.1) (N1.zip L1) := by
  obtain ⟨t, ht, hinv⟩ := build_inv xs
  obtain ⟨t1, hins, hinv1⟩ := insert_inv hinv x
  refine ⟨t, t1, _, _, _, _, ht, hins, hinv.inorderValues_eq, hinv1.inorderValues_eq,
    hinv.inorderNodes_eq, hinv1.inorderNodes_eq, ?_, fun i n hin => ?_,
    Shape.stable_ofList xs, Shape.stable_ofList (xs ++ [x])⟩
  · rw [Shape.ofList_append_singleton, hinv.length_eq, ← Shape.ids_ofList_length xs]
    exact Shape.ins_take_drop x _ _ (Shape.bst_ofList xs)
  · obtain ⟨nd, hnd, hv, -⟩ := hinv.neighbours_root i n hin
    rw [hv, hnd]; rfl

end Stable

end ASD2
